import Mathlib

/-!
Verification of the product-agent repository: a shallow embedding of the
agent control loop and answer-verification pipeline (src/agent/graph.py,
src/function_app.py, src/shared/tools.py), with theorems settling the
frozen claims about it.

Strings are modelled as `List Char` (the Python code only manipulates
ASCII text in the parts under study).  Machine integers do not occur;
Python integers are unbounded and are modelled as `Int`/`Nat`.
-/

namespace ProductAgent

/-! ### Python string primitives (ASCII), as used by the source -/

/-- The apostrophe character (U+0027), built numerically. -/
def apos : Char := Char.ofNat 39

/-- Python `str.isspace` / the regex class `\s` over ASCII:
space, tab, newline, carriage return, form feed, vertical tab. -/
def isPySpace (c : Char) : Bool :=
  c = ' ' || c = '\t' || c = '\n' || c = '\r' || c = Char.ofNat 12 || c = Char.ofNat 11

/-- ASCII `str.lower` on one character. -/
def lowerChar (c : Char) : Char :=
  if 'A' ≤ c ∧ c ≤ 'Z' then Char.ofNat (c.toNat + 32) else c

/-- Python `s.lower()` (ASCII). -/
def lowerStr (s : List Char) : List Char := s.map lowerChar

/-- Python `s.lstrip()`. -/
def lstrip (s : List Char) : List Char := s.dropWhile isPySpace

/-- Python `s.rstrip()`. -/
def rstrip (s : List Char) : List Char := (s.reverse.dropWhile isPySpace).reverse

/-- Python `s.strip()`. -/
def pstrip (s : List Char) : List Char := rstrip (lstrip s)

/-- Python `needle in hay` substring containment. -/
def containsSub (needle : List Char) : List Char → Bool
  | [] => needle.isEmpty
  | c :: t => needle.isPrefixOf (c :: t) || containsSub needle t

/-- Python `", ".join(xs)`. -/
def joinCommaSpace : List (List Char) → List Char
  | [] => []
  | [x] => x
  | x :: y :: rest => x ++ (", ".toList) ++ joinCommaSpace (y :: rest)

/-! ### JSON documents (src/shared/tools.py works on parsed JSON values) -/

/-- A parsed JSON-equivalent document.  Numbers are modelled as `Int`:
the flattener and the tools treat numbers as opaque scalars, so the
numeric type does not matter to any claim. -/
inductive Json where
  | null
  | bool (b : Bool)
  | num (n : Int)
  | str (s : List Char)
  | arr (elements : List Json)
  | obj (fields : List (List Char × Json))

mutual
/-- Node count of a document (used as a termination measure). -/
def jsize : Json → Nat
  | .null => 1
  | .bool _ => 1
  | .num _ => 1
  | .str _ => 1
  | .arr xs => 1 + jsizeArr xs
  | .obj kvs => 1 + jsizeObj kvs
def jsizeArr : List Json → Nat
  | [] => 0
  | x :: xs => jsize x + jsizeArr xs
def jsizeObj : List (List Char × Json) → Nat
  | [] => 0
  | kv :: kvs => jsize kv.2 + jsizeObj kvs
end

/-- `isinstance(v, (dict, list))` in the source. -/
def isContainer : Json → Bool
  | .arr _ => true
  | .obj _ => true
  | _ => false

theorem jsize_pos (j : Json) : 0 < jsize j := by
  cases j <;> simp [jsize]

/-! ### Decimal rendering of array indices (Python f-string `{i}`) -/

/-- The character of one decimal digit. -/
def digitChar (d : Nat) : Char := Char.ofNat (48 + d)

/-- Fuel-driven helper for `natDigits` (the fuel makes the recursion
structural, hence kernel-computable; `natDigits_eq` below recovers the
ordinary recurrence). -/
def natDigitsAux : Nat → Nat → List Char
  | 0, _ => []
  | fuel + 1, n =>
    if n < 10 then [digitChar n]
    else natDigitsAux fuel (n / 10) ++ [digitChar (n % 10)]

/-- Decimal digit characters of a natural number, most significant first;
matches Python `str(i)` for `i ≥ 0`. -/
def natDigits (n : Nat) : List Char := natDigitsAux (n + 1) n

theorem natDigitsAux_congr (f1 : Nat) : ∀ (f2 n : Nat), n < f1 → n < f2 →
    natDigitsAux f1 n = natDigitsAux f2 n := by
  induction f1 with
  | zero => omega
  | succ f1 ih =>
    intro f2 n h1 h2
    cases f2 with
    | zero => omega
    | succ f2 =>
      simp only [natDigitsAux]
      by_cases h : n < 10
      · simp [h]
      · simp only [h, if_false]
        have hd : n / 10 < n := Nat.div_lt_self (by omega) (by omega)
        rw [ih f2 (n / 10) (by omega) (by omega)]

/-- The recurrence of `natDigits`. -/
theorem natDigits_eq (n : Nat) :
    natDigits n = if n < 10 then [digitChar n]
      else natDigits (n / 10) ++ [digitChar (n % 10)] := by
  by_cases h : n < 10
  · simp [natDigits, natDigitsAux, h]
  · have hd : n / 10 < n := Nat.div_lt_self (by omega) (by omega)
    simp only [natDigits, natDigitsAux, h, if_false]
    rw [natDigitsAux_congr n (n / 10 + 1) (n / 10) (by omega) (by omega)]
    simp only [natDigitsAux]

/-! ### The flattener `_flatten_kv` (src/shared/tools.py lines 42-64) -/

/-- Path of an object member: `f"{path}.{k}" if path else k`. -/
def childPathObj (path k : List Char) : List Char :=
  if path.isEmpty then k else path ++ '.' :: k

/-- Path of an array element: `f"{path}[{i}]"`. -/
def childPathArr (path : List Char) (i : Nat) : List Char :=
  path ++ '[' :: (natDigits i ++ [']'])

/-- The children of a container node, each with its assigned path:
objects iterate their members in order, arrays their elements with
`enumerate` indices.  (Scalars have no children.) -/
def childEntries (path : List Char) : Json → List (List Char × Json)
  | .obj kvs => kvs.map (fun kv => (childPathObj path kv.1, kv.2))
  | .arr xs => xs.enum.map (fun iv => (childPathArr path iv.1, iv.2))
  | _ => []

/-- Sum of node counts over a queue of (path, node) entries. -/
def qsize (q : List (List Char × Json)) : Nat :=
  (q.map (fun e => jsize e.2)).sum

theorem jsizeArr_eq (xs : List Json) : jsizeArr xs = (xs.map jsize).sum := by
  induction xs with
  | nil => simp [jsizeArr]
  | cons x xs ih => simp [jsizeArr, ih]

theorem jsizeObj_eq (kvs : List (List Char × Json)) :
    jsizeObj kvs = (kvs.map (fun kv => jsize kv.2)).sum := by
  induction kvs with
  | nil => simp [jsizeObj]
  | cons kv kvs ih => simp [jsizeObj, ih]

theorem qsize_nil : qsize [] = 0 := rfl

theorem qsize_cons (p : List Char) (n : Json) (q : List (List Char × Json)) :
    qsize ((p, n) :: q) = jsize n + qsize q := by
  simp [qsize]

theorem qsize_append (q r : List (List Char × Json)) :
    qsize (q ++ r) = qsize q + qsize r := by
  simp [qsize]

/-- The paths assigned by `childEntries` do not change the total node
count of the children. -/
theorem qsize_childEntries (path : List Char) (node : Json) :
    qsize (childEntries path node) + 1 ≤ jsize node := by
  cases node with
  | arr xs =>
    have hmap : (xs.enum.map (fun iv => (childPathArr path iv.1, iv.2))).map
        (fun e => jsize e.2) = xs.map jsize := by
      rw [List.map_map]
      have h2 : ((fun e : List Char × Json => jsize e.2) ∘
          (fun iv : Nat × Json => (childPathArr path iv.1, iv.2)))
          = (fun iv : Nat × Json => jsize iv.2) := rfl
      rw [h2]
      have h3 : (fun iv : Nat × Json => jsize iv.2) = jsize ∘ Prod.snd := rfl
      rw [h3, ← List.map_map, List.enum_map_snd]
    simp only [childEntries, qsize, jsize, jsizeArr_eq, hmap]
    omega
  | obj kvs =>
    have hmap : (kvs.map (fun kv => (childPathObj path kv.1, kv.2))).map
        (fun e => jsize e.2) = kvs.map (fun kv => jsize kv.2) := by
      rw [List.map_map]; rfl
    simp only [childEntries, qsize, jsize, jsizeObj_eq, hmap]
    omega
  | null => simp [childEntries, qsize, jsize]
  | bool b => simp [childEntries, qsize, jsize]
  | num n => simp [childEntries, qsize, jsize]
  | str s => simp [childEntries, qsize, jsize]

theorem qsize_filter_le (p : (List Char × Json) → Bool) (q : List (List Char × Json)) :
    qsize (q.filter p) ≤ qsize q := by
  induction q with
  | nil => simp [qsize]
  | cons e q ih =>
    obtain ⟨pa, n⟩ := e
    rw [List.filter_cons, qsize_cons]
    by_cases h : p (pa, n)
    · simp only [h, if_true]
      rw [qsize_cons]
      omega
    · simp only [h, Bool.false_eq_true, if_false]
      omega

/-- Fuel-driven helper for `flattenQ` (the fuel makes the recursion
structural, hence kernel-computable; each step strictly decreases the
queue node count, so `qsize q + 1` fuel always suffices —
`flattenQ_cons` below recovers the ordinary recurrence). -/
def flattenQAux : Nat → List (List Char × Json) → List (List Char × Json)
  | 0, _ => []
  | _ + 1, [] => []
  | fuel + 1, (path, node) :: rest =>
    if isContainer node then
      ((childEntries path node).filter (fun e => !isContainer e.2)) ++
        flattenQAux fuel
          (rest ++ (childEntries path node).filter (fun e => isContainer e.2))
    else
      ((if path.isEmpty then ['$'] else path), node) :: flattenQAux fuel rest

/-- The central loop of `_flatten_kv`: pop the front entry; a container
yields its scalar children (in member/element order) now and appends its
container children to the queue; a scalar entry yields `path or "$"`.
(In the source the yield/append interleave over one `for` pass; since
all yields of the pass precede the next pop and all appends land after
`rest`, the emitted sequence is the same.) -/
def flattenQ (q : List (List Char × Json)) : List (List Char × Json) :=
  flattenQAux (qsize q + 1) q

theorem flattenQAux_congr (f1 : Nat) : ∀ (f2 : Nat) (q : List (List Char × Json)),
    qsize q < f1 → qsize q < f2 → flattenQAux f1 q = flattenQAux f2 q := by
  induction f1 with
  | zero => omega
  | succ f1 ih =>
    intro f2 q h1 h2
    cases f2 with
    | zero => omega
    | succ f2 =>
      cases q with
      | nil => rfl
      | cons e rest =>
        obtain ⟨path, node⟩ := e
        rw [qsize_cons] at h1 h2
        have hpos := jsize_pos node
        simp only [flattenQAux]
        by_cases h : isContainer node
        · simp only [h, if_true]
          have hle := qsize_filter_le (fun e => isContainer e.2) (childEntries path node)
          have hch := qsize_childEntries path node
          congr 1
          apply ih
          · rw [qsize_append]; omega
          · rw [qsize_append]; omega
        · simp only [h, Bool.false_eq_true, if_false]
          congr 1
          apply ih <;> omega

theorem flattenQ_nil : flattenQ [] = [] := rfl

/-- The recurrence of `flattenQ`: exactly the queue loop of the source. -/
theorem flattenQ_cons (path : List Char) (node : Json) (rest : List (List Char × Json)) :
    flattenQ ((path, node) :: rest) =
      if isContainer node then
        ((childEntries path node).filter (fun e => !isContainer e.2)) ++
          flattenQ (rest ++ (childEntries path node).filter (fun e => isContainer e.2))
      else
        ((if path.isEmpty then ['$'] else path), node) :: flattenQ rest := by
  have hpos := jsize_pos node
  by_cases h : isContainer node
  · simp only [flattenQ, qsize_cons, flattenQAux, h, if_true]
    congr 1
    have hle := qsize_filter_le (fun e => isContainer e.2) (childEntries path node)
    have hch := qsize_childEntries path node
    apply flattenQAux_congr
    · rw [qsize_append]; omega
    · omega
  · simp only [flattenQ, qsize_cons, flattenQAux, h, Bool.false_eq_true, if_false]
    congr 1
    apply flattenQAux_congr <;> omega

/-- `_flatten_kv(obj)`: breadth-first flatten of any JSON value into
(path, primitive value) pairs, starting from the empty prefix. -/
def flatten (doc : Json) : List (List Char × Json) := flattenQ [([], doc)]

theorem jsize_lt_of_mem_childEntries {path : List Char} {node : Json}
    {e : List Char × Json} (he : e ∈ childEntries path node) :
    jsize e.2 < jsize node := by
  have h1 : jsize e.2 ≤ qsize (childEntries path node) := by
    have hm : jsize e.2 ∈ (childEntries path node).map (fun x => jsize x.2) :=
      List.mem_map_of_mem _ he
    simpa [qsize] using List.single_le_sum (fun x _ => Nat.zero_le x) _ hm
  have h2 := qsize_childEntries path node
  omega

/-- Depth-first enumeration of the scalar leaves of a document with their
paths.  This is a specification-side description (not taken from the
source); the round-trip theorem relates `flatten` to it. -/
def leavesAt (path : List Char) (node : Json) : List (List Char × Json) :=
  if isContainer node then
    (childEntries path node).attach.flatMap (fun e =>
      if isContainer e.1.2 then leavesAt e.1.1 e.1.2 else [e.1])
  else
    [((if path.isEmpty then ['$'] else path), node)]
  termination_by jsize node
  decreasing_by
    exact jsize_lt_of_mem_childEntries e.2

/-! ### Messages and tool calls (the langchain message shapes the source reads) -/

/-- The `function` part of an OpenAI-style tool call: a name and the
arguments.  The source stores the arguments as a JSON string and parses
them with `json.loads` at each use; here `arguments` is the parse result,
`none` when the string does not parse to a JSON object (the source either
catches the raised error or never reaches a subscript, so a non-object
never contributes data; see `ctxStep`). -/
structure ToolFunction where
  name : Option (List Char)
  arguments : Option Json

/-- One entry of an assistant message's `tool_calls` list.  `function` is
`none` when the entry has no `"function"` key. -/
structure ToolCall where
  callId : Option (List Char)
  function : Option ToolFunction

/-- A conversation turn (SystemMessage / HumanMessage / AIMessage /
ToolMessage in the source).  An `ai` turn carries the `tool_calls` list of
its `additional_kwargs` (empty list when the key is absent or falsy) and
whether a `function_call` entry is present. -/
inductive Msg where
  | system (content : List Char)
  | human (content : List Char)
  | ai (content : List Char) (toolCalls : List ToolCall) (functionCall : Bool)
  | tool (content : List Char) (toolCallId : List Char)

/-- The `content` attribute common to every message class. -/
def Msg.content : Msg → List Char
  | .system c => c
  | .human c => c
  | .ai c _ _ => c
  | .tool c _ => c

/-- First-match association lookup, the dict accesses of the source
(parsed JSON objects have unique keys, so first-match equals dict lookup). -/
def lookupKV : List (List Char × Json) → List Char → Option Json
  | [], _ => none
  | kv :: rest, k => if kv.1 = k then some kv.2 else lookupKV rest k

/-- Python truthiness of a JSON value. -/
def jTruthy : Json → Bool
  | .null => false
  | .bool b => b
  | .num n => !(n = 0)
  | .str s => !s.isEmpty
  | .arr xs => !xs.isEmpty
  | .obj kvs => !kvs.isEmpty

/-- `tc["function"].get("name")` when both keys exist. -/
def tcFunctionName (tc : ToolCall) : Option (List Char) :=
  match tc.function with
  | some f => f.name
  | none => none

/-! ### Context extractor `_extract_context_from_history`
(src/agent/graph.py lines 63-91) -/

/-- Processing of one tool-call entry inside the history scan: parse the
arguments; if the tool name contains "product" or "kv" and a truthy
`designation` argument exists, append it; if a truthy `field` argument
exists, overwrite `last_field`.  Entries without a `"function"` key are
skipped (`continue`), and non-object arguments contribute nothing (the
subscript raises and the bare `except` swallows it before any effect). -/
def ctxStep (st : List Json × Option Json) (tc : ToolCall) : List Json × Option Json :=
  match tc.function with
  | none => st
  | some f =>
    match f.arguments with
    | some (.obj args) =>
      let fname := f.name.getD []
      let st1 :=
        if containsSub ("product".toList) (lowerStr fname) ||
            containsSub ("kv".toList) (lowerStr fname) then
          match lookupKV args ("designation".toList) with
          | some v => if jTruthy v then (st.1 ++ [v], st.2) else st
          | none => st
        else st
      match lookupKV args ("field".toList) with
      | some v => if jTruthy v then (st1.1, some v) else st1
      | none => st1
    | _ => st

/-- The `for m in reversed(messages)` scan: the input list here is already
reversed.  Only assistant turns with a truthy `tool_calls` list are
processed; the loop breaks after the first turn that leaves
`last_designations` non-empty. -/
def scanCtx : List Msg → List Json → Option Json → List Json × Option Json
  | [], ds, f => (ds, f)
  | .ai _ tcs _ :: rest, ds, f =>
    if tcs.isEmpty then scanCtx rest ds f
    else
      let st := tcs.foldl ctxStep (ds, f)
      if st.1.isEmpty then scanCtx rest st.1 st.2 else st
  | .system _ :: rest, ds, f => scanCtx rest ds f
  | .human _ :: rest, ds, f => scanCtx rest ds f
  | .tool _ _ :: rest, ds, f => scanCtx rest ds f

/-- `_extract_context_from_history(messages)`: returns
`last_designations[:3], last_field`. -/
def extractContextFromHistory (messages : List Msg) : List Json × Option Json :=
  let st := scanCtx messages.reverse [] none
  (st.1.take 3, st.2)

/-! ### Metadata extractor `_extract_metadata_from_answer`
(src/function_app.py lines 20-87).  The `confidence` computation (a
separate regex and numeric bucketing, lines 25-39) is not modelled: no
claim concerns it and it feeds no other field. -/

/-- The character class `[E0-9,\s]` of the evidence regex under
`re.IGNORECASE` (so both `E` and `e` match). -/
def classW (c : Char) : Bool :=
  c = 'E' || c = 'e' || c.isDigit || c = ',' || isPySpace c

/-- Scan for the first position where `re.search(r'Evidence:\s*([E0-9,\s]+)', ...,
re.IGNORECASE)` matches: a case-insensitive `evidence:` followed by at
least one class character (`\s* ` can be empty and `\s ⊆ [E0-9,\s]`, so
the whole pattern matches at a position iff one class character follows).
Returns the text after the matched `evidence:`. -/
def evidenceSuffix : List Char → Option (List Char)
  | [] => none
  | c :: t =>
    if ("evidence:".toList).isPrefixOf (lowerStr (c :: t)) &&
        (match (c :: t).drop 9 with
         | [] => false
         | d :: _ => classW d) then
      some ((c :: t).drop 9)
    else evidenceSuffix t

/-- The parsed evidence-id list:
`[e.strip() for e in match.group(1).split(',') if e.strip()]`.
The regex group is the maximal class run after the maximal whitespace run
(when that run is empty, backtracking makes the group a single whitespace
character, whose split produces no surviving entry — the same list as the
empty run, so only the run `r` below matters). -/
def parseEvidence (answer : List Char) : List (List Char) :=
  match evidenceSuffix answer with
  | none => []
  | some s =>
    let r := (s.dropWhile isPySpace).takeWhile classW
    ((List.splitOn ',' r).map pstrip).filter (fun e => !e.isEmpty)

/-- The backward walk of `_extract_metadata_from_answer` over the history
(input already reversed): stop at the first assistant turn with a truthy
`tool_calls` list, collecting the entries carrying a function name; a
ToolMessage seen on the way sets the accumulator and the walk goes on.
Returns `(has_tool_evidence, tools_used)`. -/
def metaToolScan : List Msg → Bool → Bool × List (List Char)
  | [], acc => (acc, [])
  | .ai _ tcs _ :: rest, acc =>
    if tcs.isEmpty then metaToolScan rest acc
    else
      (!(tcs.filterMap tcFunctionName).isEmpty, tcs.filterMap tcFunctionName)
  | .tool _ _ :: rest, _ => metaToolScan rest true
  | .system _ :: rest, acc => metaToolScan rest acc
  | .human _ :: rest, acc => metaToolScan rest acc

/-- The fixed list `no_evidence_phrases` of the source. -/
def noEvidencePhrases : List (List Char) :=
  [ "don".toList ++ [apos] ++ "t have enough evidence".toList
  , "not found in evidence".toList
  , "no evidence".toList
  , "cannot find".toList
  , "not available in the data".toList
  , "lack evidence".toList ]

/-- The fields of the metadata dict the claims concern. -/
structure Metadata where
  grounded : Bool
  hallucination : Bool
  toolsUsed : List (List Char)
  evidence : List (List Char)
deriving DecidableEq

/-- `_extract_metadata_from_answer(answer, messages)` restricted to the
grounding fields. -/
def extractMetadataFromAnswer (answer : List Char) (messages : List Msg) : Metadata :=
  let evidence := parseEvidence answer
  let scan := metaToolScan messages.reverse false
  let grounded := scan.1 && !evidence.isEmpty
  let hasNoEvidence := noEvidencePhrases.any (fun p => containsSub p (lowerStr answer))
  { grounded := grounded
    hallucination := !grounded || hasNoEvidence
    toolsUsed := scan.2
    evidence := evidence }

/-! ### The key-value tool `get_product_kv_pairs_tool`
(src/shared/tools.py lines 161-213) and `_designation_of` (lines 66-77).
The file/directory reading of `get_all_products_data` is the product
data-source boundary; the tool logic below starts from its parsed JSON
result (`data = json.loads(raw)`). -/

/-- The ordered candidate identifier keys of `_designation_of`. -/
def idKeys : List (List Char) :=
  ["designation".toList, "title".toList, "name".toList, "product_name".toList]

/-- First key whose value is a string with non-blank content; returns the
stripped value. -/
def firstIdKey : List (List Char) → List (List Char × Json) → Option (List Char)
  | [], _ => none
  | k :: rest, fields =>
    match lookupKV fields k with
    | some (.str s) => if (pstrip s).isEmpty then firstIdKey rest fields else some (pstrip s)
    | _ => firstIdKey rest fields

/-- `_designation_of(obj)`: the fallback chain over the top-level keys,
then over the keys of a nested `"product"` object. -/
def designationOf (fields : List (List Char × Json)) : Option (List Char) :=
  match firstIdKey idKeys fields with
  | some d => some d
  | none =>
    match lookupKV fields ("product".toList) with
    | some (.obj inner) => firstIdKey idKeys inner
    | _ => none

/-- One item of the tool response. -/
structure KvItem where
  designation : List Char
  kv : List (List Char × Json)
  truncated : Bool

/-- The per-product pair cap `max(50, limit)`. -/
def kvCap (limit : Int) : Int := max 50 limit

/-- The default of the `limit` parameter in the tool signature. -/
def kvDefaultLimit : Int := 200

/-- Processing of one entry of the products array: non-dict entries are
skipped; with a truthy `designation` argument and a resolved identifier,
mismatching products are skipped; the flattened pairs are collected until
the count reaches `max(50, limit)` (`cnt >= max(50, limit)` breaks right
after the append, setting `truncated`), which over the emitted list means
taking the first `max(50, limit)` pairs and flagging iff at least that
many exist. -/
def kvProcess (designation : Option (List Char)) (limit : Int) (prod : Json) : Option KvItem :=
  match prod with
  | .obj fields =>
    let d := designationOf fields
    let keep : Bool :=
      match designation, d with
      | some dsg, some dd =>
        if dsg.isEmpty then true
        else decide (pstrip (lowerStr dd) = pstrip (lowerStr dsg))
      | _, _ => true
    if keep then
      some { designation := d.getD ("unknown".toList)
             kv := (flatten prod).take (kvCap limit).toNat
             truncated := decide (((flatten prod).length : Int) ≥ kvCap limit) }
    else none
  | _ => none

/-- `get_product_kv_pairs_tool` after the data source returned `data`:
an `"error"` object or a non-array is reported as an error payload;
otherwise the items and the document-level `truncated` flag
(`any_trunc` is set exactly when some emitted item was truncated). -/
def getProductKvPairs (data : Json) (designation : Option (List Char)) (limit : Int) :
    Except Json (List KvItem × Bool) :=
  match data with
  | .obj fields =>
    match lookupKV fields ("error".toList) with
    | some e => .error e
    | none => .error (.str ("Expected array of products".toList))
  | .arr prods =>
    let items := prods.filterMap (kvProcess designation limit)
    .ok (items, items.any (fun it => it.truncated))
  | _ => .error (.str ("Expected array of products".toList))

/-! ### The final-answer path of `_run_model` (src/agent/graph.py
lines 196-222) -/

/-- The backward walk computing `tools_used` in `_run_model` (input
already reversed): names from the most recent assistant turn with a
truthy `tool_calls` list. -/
def loopToolNames : List Msg → List (List Char)
  | [] => []
  | .ai _ tcs _ :: rest =>
    if tcs.isEmpty then loopToolNames rest else tcs.filterMap tcFunctionName
  | .system _ :: rest => loopToolNames rest
  | .human _ :: rest => loopToolNames rest
  | .tool _ _ :: rest => loopToolNames rest

/-- The deterministic `"\n\nTools used: ..."` footer. -/
def toolsFooter (messages : List Msg) : List Char :=
  let tools := loopToolNames messages.reverse
  ("\n\nTools used: ".toList) ++
    (if tools.isEmpty then "none".toList else joinCommaSpace tools)

/-- The fixed fallback answer of `_run_model`. -/
def insufficientEvidenceMsg : List Char :=
  "I don".toList ++ [apos] ++ "t have enough evidence from the loaded data.".toList

/-- The final-answer path of `_run_model`: `draft` is the model content,
`vres` the outcome of the verification model call (`error` models any
raised exception — the only fallible step inside the `try`), `messages`
the loop state.  The result is the text of the appended final
AIMessage; the function is total, so a verification failure never
escapes this path. -/
def runModelFinal (draft : List Char) (vres : Except Unit (List Char))
    (messages : List Msg) : List Char :=
  let finalText :=
    if !(pstrip draft).isEmpty then
      match vres with
      | .ok content =>
        let verified := pstrip content
        if verified.isEmpty then draft else verified
      | .error _ => if draft.isEmpty then insufficientEvidenceMsg else draft
    else insufficientEvidenceMsg
  rstrip finalText ++ toolsFooter messages

/-! ### The agent loop (build_graph, src/agent/graph.py lines 224-238,
and needs_tool, lines 54-61) -/

/-- A model response at the inference boundary. -/
structure ModelResp where
  content : List Char
  toolCalls : List ToolCall
  functionCall : Bool

/-- `needs_tool` on one message. -/
def needsToolMsg : Msg → Bool
  | .ai _ tcs fc => !tcs.isEmpty || fc
  | _ => false

/-- `needs_tool(state)`: inspects the last message of the state (the
state always holds at least the initial user turn). -/
def needsTool (messages : List Msg) : Bool :=
  match messages.getLast? with
  | some m => needsToolMsg m
  | none => false

/-- The message `_run_model` appends: the tool-call request when the
response carries `tool_calls` or `function_call`, else the verified final
answer.  `verifier` is the second model call of the final path. -/
def agentMessage (verifier : List Char → List Msg → Except Unit (List Char))
    (r : ModelResp) (messages : List Msg) : Msg :=
  if !r.toolCalls.isEmpty || r.functionCall then .ai r.content r.toolCalls r.functionCall
  else .ai (runModelFinal r.content (verifier r.content messages) messages) [] false

/-- The compiled graph of `build_graph`, run with a step budget: the
agent node appends its message; the conditional edge runs `needs_tool`
on the state; the tools node (`execTools`, the read-only Tool Executor
boundary) appends its result messages and control returns to the agent.
`none` means the budget was exhausted with the loop still running —
the graph itself has no round bound. -/
def runLoop (model : List Msg → ModelResp)
    (verifier : List Char → List Msg → Except Unit (List Char))
    (execTools : ModelResp → List Msg) :
    Nat → List Msg → Option (List Msg)
  | 0, _ => none
  | fuel + 1, messages =>
    let r := model messages
    let afterAgent := messages ++ [agentMessage verifier r messages]
    if needsTool afterAgent then
      runLoop model verifier execTools fuel (afterAgent ++ execTools r)
    else some afterAgent

/-! ### The chat endpoint (src/function_app.py lines 124-221) and the
malicious-input check (lines 89-122) -/

/-- The in-memory `SESSION_STORE`, session id to message history. -/
abbrev Store := List (List Char × List Msg)

def storeGet : Store → List Char → Option (List Msg)
  | [], _ => none
  | e :: rest, k => if e.1 = k then some e.2 else storeGet rest k

def storeSet : Store → List Char → List Msg → Store
  | [], k, v => [(k, v)]
  | e :: rest, k, v => if e.1 = k then (k, v) :: rest else e :: storeSet rest k v

/-- The `malicious_patterns` keyword/reason table of
`_check_malicious_input`, in source order. -/
def maliciousPatterns : List (List Char × List Char) :=
  [ ("hack".toList, "unauthorized access attempts".toList)
  , ("password".toList, "attempting to access credentials".toList)
  , ("credit card".toList, "requesting sensitive financial data".toList)
  , ("bank".toList, "banking credential requests".toList)
  , ("login".toList, "login credential requests".toList)
  , ("bypass".toList, "security bypass attempts".toList)
  , ("exploit".toList, "exploitation attempts".toList)
  , ("ddos".toList, "denial of service attempts".toList)
  , ("steal".toList, "data theft attempts".toList)
  , ("token".toList, "authentication token requests".toList)
  , ("api key".toList, "API key theft attempts".toList)
  , ("credentials".toList, "credential theft attempts".toList)
  , ("drop table".toList, "SQL injection attempts".toList)
  , ([apos] ++ " or ".toList ++ [apos] ++ "1".toList ++ [apos] ++ "=".toList ++
      [apos] ++ "1".toList, "SQL injection attempts".toList)
  , ("rm -rf".toList, "destructive system commands".toList)
  , ("delete *".toList, "destructive operations".toList) ]

/-- `_check_malicious_input(text)`: first matching keyword (contained in
the lowercased text) wins; empty text is never malicious. -/
def checkMaliciousInput (text : List Char) : Bool × List Char :=
  if text.isEmpty then (false, [])
  else
    match maliciousPatterns.find? (fun p => containsSub p.1 (lowerStr text)) with
    | some p => (true, p.2)
    | none => (false, [])

/-- The fixed refusal text of the blocked branch of `chat`. -/
def refusalMessage : List Char :=
  "I cannot assist with this request. I".toList ++ [apos] ++
  ("m designed to provide product information only and cannot help with " ++
   "unauthorized access, hacking, or requests involving sensitive credentials.").toList

/-- The response payload fields of `chat` (the `confidence` field is
omitted for the same reason as in `Metadata`). -/
structure ChatPayload where
  finalAnswer : List Char
  grounded : Bool
  hallucination : Bool
  malicious : Bool
  maliciousReason : Option (List Char)
  reasoning : List Char
  decisionTool : List Char
  toolCallNames : List (List Char)
  toolCallFound : Bool
  evidence : List (List Char)
deriving DecidableEq

/-- The `chat` endpoint body: strip the user text, check it, either
return the fixed refusal payload with the store untouched, or run the
graph (`graphInvoke`, the compiled-graph boundary) on the appended
history, store the result, and build the payload from the extracted
metadata.  Every message carries `content`, so the final-message
dispatch of the source collapses to reading it. -/
def chat (store : Store) (bodyText sessionIdRaw : List Char)
    (graphInvoke : List Msg → List Msg) : Store × ChatPayload :=
  let userText := pstrip bodyText
  let sessionId := if (pstrip sessionIdRaw).isEmpty then "default".toList
    else pstrip sessionIdRaw
  let mal := checkMaliciousInput userText
  if mal.1 then
    (store,
     { finalAnswer := refusalMessage
       grounded := false
       hallucination := false
       malicious := true
       maliciousReason := some mal.2
       reasoning := "Blocked request: ".toList ++ mal.2
       decisionTool := "safety_filter".toList
       toolCallNames := ["safety_filter".toList]
       toolCallFound := false
       evidence := [] })
  else
    let hist := (storeGet store sessionId).getD [] ++ [.human userText]
    let result := graphInvoke hist
    let store1 := storeSet store sessionId result
    let content := (result.getLast?.map Msg.content).getD []
    let md := extractMetadataFromAnswer content result
    (store1,
     { finalAnswer := content
       grounded := md.grounded
       hallucination := md.hallucination
       malicious := false
       maliciousReason := none
       reasoning := "Used tools: ".toList ++
         (if md.toolsUsed.isEmpty then "none".toList else joinCommaSpace md.toolsUsed)
       decisionTool := (md.toolsUsed.head?).getD ("no_tool".toList)
       toolCallNames := md.toolsUsed
       toolCallFound := md.grounded
       evidence := md.evidence })

/-! ### Observables on messages used by the claim statements -/

/-- The tool calls carried by a message (empty for non-assistant turns). -/
def toolCallsOfMsg : Msg → List ToolCall
  | .ai _ tcs _ => tcs
  | _ => []

/-- Whether a message is an assistant turn with a truthy `tool_calls`
list. -/
def isAiWithToolCalls : Msg → Bool
  | .ai _ tcs _ => !tcs.isEmpty
  | _ => false

/-- Whether a message is a tool-result turn. -/
def isToolResult : Msg → Bool
  | .tool _ _ => true
  | _ => false

/-- The tool calls of an assistant turn when truthy. -/
def aiToolCallsOf : Msg → Option (List ToolCall)
  | .ai _ tcs _ => if tcs.isEmpty then none else some tcs
  | _ => none

/-- The most recent assistant turn carrying tool calls. -/
def mostRecentToolTurn (messages : List Msg) : Option (List ToolCall) :=
  messages.reverse.findSome? aiToolCallsOf

/-! ### Generic lemmas about the string primitives -/

/-- `containsSub` decides substring containment. -/
theorem containsSub_iff (needle hay : List Char) :
    containsSub needle hay = true ↔ needle <:+: hay := by
  induction hay with
  | nil =>
    simp [containsSub, List.isEmpty_iff]
  | cons c t ih =>
    rw [containsSub, List.infix_cons_iff, Bool.or_eq_true, ih,
      List.isPrefixOf_iff_prefix]

/-! ### Claim C1: verifier fallback in the final-answer path of
`_run_model` -/

/-- Claim C1 as stated fails: for a draft with trailing whitespace the
final-answer path under a failing verification call does not return the
draft with the footer appended — the draft is right-stripped first
(`(final_text or "").rstrip()` at src/agent/graph.py line 221). -/
theorem C1_counterexample :
    runModelFinal ("The width is 15 mm. ".toList) (.error ()) [] ≠
      ("The width is 15 mm. ".toList) ++ toolsFooter [] := by
  decide

/-- Claim C1 (amended): for every draft that is non-empty after
stripping, if the verification call raises, the final-answer path
returns the draft — with its trailing whitespace removed — followed by
the deterministic tools-used footer; the failure is consumed by the
`except` handler (`runModelFinal` is the total result of that handler),
so it never escalates to the caller. -/
theorem C1_verifier_fallback (draft : List Char) (messages : List Msg)
    (h : pstrip draft ≠ []) :
    runModelFinal draft (.error ()) messages =
      rstrip draft ++ toolsFooter messages := by
  have hd : draft ≠ [] := by
    intro he
    rw [he] at h
    exact h rfl
  have hb : (pstrip draft).isEmpty = false := by
    cases hc : (pstrip draft).isEmpty
    · rfl
    · exact absurd (by simpa [List.isEmpty_iff] using hc) h
  have hdb : draft.isEmpty = false := by
    cases hc : draft.isEmpty
    · rfl
    · exact absurd (by simpa [List.isEmpty_iff] using hc) hd
  simp only [runModelFinal, hb, hdb, Bool.not_false, if_true, Bool.false_eq_true, if_false]

theorem C1_verifier_fallback_witness :
    pstrip ("The width is 15 mm. ".toList) ≠ [] ∧
    runModelFinal ("The width is 15 mm. ".toList) (.error ()) [] =
      rstrip ("The width is 15 mm. ".toList) ++ toolsFooter [] :=
  ⟨by decide, C1_verifier_fallback _ _ (by decide)⟩

/-! ### Claim C3: the hallucination rule of the metadata extractor -/

/-- Claim C3: the extractor reports a hallucination exactly when the
answer is not grounded or its lowercased text contains one of the fixed
no-evidence phrases; in particular any answer containing the phrase
"not found in evidence" is flagged, whatever the history and citations. -/
theorem C3_hallucination_rule :
    (∀ (answer : List Char) (messages : List Msg),
      (extractMetadataFromAnswer answer messages).hallucination = true ↔
        ((extractMetadataFromAnswer answer messages).grounded = false ∨
          ∃ p ∈ noEvidencePhrases, containsSub p (lowerStr answer) = true)) ∧
    (∀ (answer : List Char) (messages : List Msg),
      ("not found in evidence".toList) <:+: answer →
        (extractMetadataFromAnswer answer messages).hallucination = true) := by
  constructor
  · intro answer messages
    simp only [extractMetadataFromAnswer, Bool.or_eq_true, Bool.not_eq_true',
      List.any_eq_true]
  · intro answer messages hin
    have hlow : ("not found in evidence".toList) <:+: lowerStr answer := by
      have hmap := List.IsInfix.map lowerChar hin
      have : List.map lowerChar ("not found in evidence".toList) =
          "not found in evidence".toList := by decide
      rw [this] at hmap
      exact hmap
    simp only [extractMetadataFromAnswer, Bool.or_eq_true, Bool.not_eq_true',
      List.any_eq_true]
    right
    exact ⟨"not found in evidence".toList, by simp [noEvidencePhrases],
      (containsSub_iff _ _).mpr hlow⟩

theorem C3_hallucination_rule_witness :
    (("not found in evidence".toList) <:+:
        ("The width is not found in evidence.".toList)) ∧
    (extractMetadataFromAnswer ("The width is not found in evidence.".toList)
        []).hallucination = true :=
  ⟨by decide, C3_hallucination_rule.2 _ [] (by decide)⟩

/-! ### Claim C9: the loop has no round cap -/

/-- For any model that keeps answering with tool calls, the graph keeps
cycling agent → tools → agent: after any finite budget of agent rounds
the run is still unfinished.  (Helper shared by the C9 theorems.) -/
theorem runLoop_alwaysTool_none (model : List Msg → ModelResp)
    (verifier : List Char → List Msg → Except Unit (List Char))
    (execTools : ModelResp → List Msg)
    (hmodel : ∀ msgs, (model msgs).toolCalls ≠ []) :
    ∀ (fuel : Nat) (messages : List Msg),
      runLoop model verifier execTools fuel messages = none := by
  intro fuel
  induction fuel with
  | zero => intro messages; rfl
  | succ n ih =>
    intro messages
    have htc : ((model messages).toolCalls.isEmpty = false) := by
      simpa [List.isEmpty_iff] using hmodel messages
    have hmsg : agentMessage verifier (model messages) messages =
        .ai (model messages).content (model messages).toolCalls
          (model messages).functionCall := by
      unfold agentMessage
      rw [if_pos]
      simp [htc]
    have hneeds : needsTool
        (messages ++ [agentMessage verifier (model messages) messages]) = true := by
      rw [hmsg]
      unfold needsTool
      rw [List.getLast?_concat]
      simp [needsToolMsg, htc]
    unfold runLoop
    simp only [hneeds, if_true]
    exact ih _

/-- A model stub that requests the same tool call on every turn. -/
def alwaysToolModel : List Msg → ModelResp :=
  fun _ => ⟨[], [⟨some ("1".toList), some ⟨some ("time_tool".toList),
    some (Json.obj [])⟩⟩], false⟩

/-- A verifier stub. -/
def nullVerifier : List Char → List Msg → Except Unit (List Char) :=
  fun _ _ => .ok []

/-- A tool-executor stub. -/
def nullExec : ModelResp → List Msg := fun _ => [Msg.tool [] ("1".toList)]

/-- Claim C9 as stated fails: no bound on the number of rounds makes the
loop stop for the always-tool-requesting model — the code has no
round cap and no LoopExceeded condition (`build_graph` wires
`tools → agent` back unconditionally). -/
theorem C9_counterexample :
    ¬ ∃ bound : Nat,
      (runLoop alwaysToolModel nullVerifier nullExec bound []).isSome = true := by
  rintro ⟨bound, h⟩
  rw [runLoop_alwaysTool_none alwaysToolModel nullVerifier nullExec
    (fun _ => by simp [alwaysToolModel]) bound []] at h
  simp at h

/-- Claim C9 (amended): the agent loop enforces no maximum number of
tool-call rounds: for every model that requests tools on each turn, and
every finite round budget, the loop is still cycling (there is no
LoopExceeded failure in the code; the spec itself records the cap as a
mandated strengthening, not observed behavior). -/
theorem C9_no_round_cap (model : List Msg → ModelResp)
    (verifier : List Char → List Msg → Except Unit (List Char))
    (execTools : ModelResp → List Msg)
    (hmodel : ∀ msgs, (model msgs).toolCalls ≠ []) :
    ∀ (fuel : Nat) (messages : List Msg),
      runLoop model verifier execTools fuel messages = none :=
  runLoop_alwaysTool_none model verifier execTools hmodel

theorem C9_no_round_cap_witness :
    (∀ msgs, (alwaysToolModel msgs).toolCalls ≠ []) ∧
    runLoop alwaysToolModel nullVerifier nullExec 25 [] = none :=
  ⟨fun _ => by simp [alwaysToolModel],
   C9_no_round_cap alwaysToolModel nullVerifier nullExec
     (fun _ => by simp [alwaysToolModel]) 25 []⟩

/-! ### Claim C10: blocked requests leave the session store untouched -/

/-- Claim C10: when the stripped user text trips the malicious-input
keyword check, `chat` returns the fixed refusal payload
(`malicious = true`, `grounded = false`, `hallucination = false`, the
fixed refusal text, the `safety_filter` pseudo-tool, no evidence), the
store is returned exactly as it was, and the result does not depend on
the agent graph at all (the graph is never invoked). -/
theorem C10_malicious_blocked (store : Store) (bodyText sessionIdRaw : List Char)
    (g g2 : List Msg → List Msg)
    (h : (checkMaliciousInput (pstrip bodyText)).1 = true) :
    (chat store bodyText sessionIdRaw g).1 = store ∧
    (chat store bodyText sessionIdRaw g).2.malicious = true ∧
    (chat store bodyText sessionIdRaw g).2.grounded = false ∧
    (chat store bodyText sessionIdRaw g).2.hallucination = false ∧
    (chat store bodyText sessionIdRaw g).2.finalAnswer = refusalMessage ∧
    (chat store bodyText sessionIdRaw g).2.toolCallNames = ["safety_filter".toList] ∧
    (chat store bodyText sessionIdRaw g).2.evidence = [] ∧
    chat store bodyText sessionIdRaw g = chat store bodyText sessionIdRaw g2 := by
  unfold chat
  simp [h]

theorem C10_malicious_blocked_witness :
    (checkMaliciousInput (pstrip ("  how to hack this product db ".toList))).1 = true ∧
    (chat [("s1".toList, [Msg.human ("earlier".toList)])]
        ("  how to hack this product db ".toList) ("s1".toList)
        (fun h => h ++ [Msg.ai ("x".toList) [] false])).1 =
      [("s1".toList, [Msg.human ("earlier".toList)])] :=
  ⟨by decide,
   (C10_malicious_blocked [("s1".toList, [Msg.human ("earlier".toList)])]
      ("  how to hack this product db ".toList) ("s1".toList)
      (fun h => h ++ [Msg.ai ("x".toList) [] false]) id (by decide)).1⟩

/-! ### Claim C2: the grounded flag and the tools-used list -/

/-- Characterization of the backward walk of the metadata extractor:
it returns the (name-bearing) entries of the first assistant turn with
truthy tool calls, and `has_tool_evidence` is whether that list is
non-empty; when no such turn exists, `has_tool_evidence` is whether a
tool-result message was seen. -/
theorem metaToolScan_spec (rmsgs : List Msg) (acc : Bool) :
    metaToolScan rmsgs acc =
      match rmsgs.findSome? aiToolCallsOf with
      | some tcs => (!(tcs.filterMap tcFunctionName).isEmpty, tcs.filterMap tcFunctionName)
      | none => (acc || rmsgs.any isToolResult, []) := by
  induction rmsgs generalizing acc with
  | nil => simp [metaToolScan, List.findSome?]
  | cons m rest ih =>
    cases m with
    | ai c tcs fc =>
      by_cases h : tcs.isEmpty
      · rw [List.findSome?_cons]
        simp [metaToolScan, aiToolCallsOf, h, ih, isToolResult]
      · rw [List.findSome?_cons]
        simp [metaToolScan, aiToolCallsOf, h]
    | tool c tid =>
      rw [List.findSome?_cons]
      simp only [metaToolScan, aiToolCallsOf, ih true]
      cases hfind : rest.findSome? aiToolCallsOf with
      | some tcs => rfl
      | none => simp [isToolResult]
    | system c =>
      rw [List.findSome?_cons]
      simp [metaToolScan, aiToolCallsOf, ih, isToolResult]
    | human c =>
      rw [List.findSome?_cons]
      simp [metaToolScan, aiToolCallsOf, ih, isToolResult]

theorem isAiWithToolCalls_iff (m : Msg) :
    isAiWithToolCalls m = true ↔ ∃ tcs, aiToolCallsOf m = some tcs := by
  cases m with
  | ai c tcs fc =>
    by_cases h : tcs.isEmpty <;> simp [isAiWithToolCalls, aiToolCallsOf, h]
  | system c => simp [isAiWithToolCalls, aiToolCallsOf]
  | human c => simp [isAiWithToolCalls, aiToolCallsOf]
  | tool c tid => simp [isAiWithToolCalls, aiToolCallsOf]

/-- Claim C2: over a history the loop itself can produce — every
`tool_calls` entry carries a function name (`h1`; the loop builds them
that way at src/agent/graph.py lines 171-180), and tool-result messages
only follow a tool-requesting assistant turn (`h2`) — the extractor
reports `grounded = true` exactly when some assistant turn used tools
and at least one evidence id was parsed from the answer text, and the
tools-used list comes from the most recent tool-carrying assistant turn
only. -/
theorem C2_grounded_iff (answer : List Char) (messages : List Msg)
    (h1 : ∀ m ∈ messages, ∀ tc ∈ toolCallsOfMsg m, (tcFunctionName tc).isSome = true)
    (h2 : (∃ m ∈ messages, isToolResult m = true) →
      ∃ m ∈ messages, isAiWithToolCalls m = true) :
    ((extractMetadataFromAnswer answer messages).grounded = true ↔
      ((∃ m ∈ messages, isAiWithToolCalls m = true) ∧ parseEvidence answer ≠ [])) ∧
    (extractMetadataFromAnswer answer messages).toolsUsed =
      ((mostRecentToolTurn messages).getD []).filterMap tcFunctionName := by
  have hmeta : extractMetadataFromAnswer answer messages =
      { grounded := (metaToolScan messages.reverse false).1 &&
          !(parseEvidence answer).isEmpty
        hallucination := !((metaToolScan messages.reverse false).1 &&
          !(parseEvidence answer).isEmpty) ||
          noEvidencePhrases.any (fun p => containsSub p (lowerStr answer))
        toolsUsed := (metaToolScan messages.reverse false).2
        evidence := parseEvidence answer } := rfl
  rw [hmeta, metaToolScan_spec]
  unfold mostRecentToolTurn
  cases hfind : messages.reverse.findSome? aiToolCallsOf with
  | some tcs =>
    obtain ⟨m, hm, hma⟩ := List.exists_of_findSome?_eq_some hfind
    have hmmem : m ∈ messages := List.mem_reverse.mp hm
    have htcs : toolCallsOfMsg m = tcs ∧ tcs ≠ [] := by
      cases m with
      | ai c tcs0 fc =>
        simp only [aiToolCallsOf] at hma
        by_cases h : tcs0.isEmpty
        · simp [h] at hma
        · simp only [h, Bool.false_eq_true, if_false, Option.some.injEq] at hma
          subst hma
          exact ⟨rfl, by simpa [List.isEmpty_iff] using h⟩
      | system c => simp [aiToolCallsOf] at hma
      | human c => simp [aiToolCallsOf] at hma
      | tool c tid => simp [aiToolCallsOf] at hma
    have hnames : tcs.filterMap tcFunctionName ≠ [] := by
      obtain ⟨tc0, htc0⟩ : ∃ tc0, tc0 ∈ tcs := by
        cases tcs with
        | nil => exact absurd rfl htcs.2
        | cons a l => exact ⟨a, List.mem_cons_self a l⟩
      have hsome := h1 m hmmem tc0 (htcs.1 ▸ htc0)
      obtain ⟨nm, hnm⟩ := Option.isSome_iff_exists.mp hsome
      intro hcontra
      have : nm ∈ tcs.filterMap tcFunctionName :=
        List.mem_filterMap.mpr ⟨tc0, htc0, hnm⟩
      rw [hcontra] at this
      exact absurd this (List.not_mem_nil nm)
    have hexists : ∃ m ∈ messages, isAiWithToolCalls m = true := by
      refine ⟨m, hmmem, ?_⟩
      exact (isAiWithToolCalls_iff m).mpr ⟨tcs, hma⟩
    constructor
    · simp only [Bool.and_eq_true, Bool.not_eq_true', List.isEmpty_iff]
      constructor
      · rintro ⟨-, hev⟩
        exact ⟨hexists, by simpa [List.isEmpty_iff] using hev⟩
      · rintro ⟨-, hev⟩
        refine ⟨by simpa [List.isEmpty_iff] using hnames, ?_⟩
        simpa [List.isEmpty_eq_true] using hev
    · rfl
  | none =>
    have hnone : ∀ m ∈ messages, aiToolCallsOf m = none := by
      intro m hm
      exact List.findSome?_eq_none_iff.mp hfind m (List.mem_reverse.mpr hm)
    have hnoai : ¬ ∃ m ∈ messages, isAiWithToolCalls m = true := by
      rintro ⟨m, hm, hw⟩
      obtain ⟨tcs, htcs⟩ := (isAiWithToolCalls_iff m).mp hw
      rw [hnone m hm] at htcs
      cases htcs
    have hnotool : messages.reverse.any isToolResult = false := by
      rw [Bool.eq_false_iff]
      intro hany
      obtain ⟨m, hm, hw⟩ := List.any_eq_true.mp hany
      exact hnoai (h2 ⟨m, List.mem_reverse.mp hm, hw⟩)
    constructor
    · simp [hnotool, hnoai]
    · rfl

theorem C2_grounded_iff_witness :
    (∀ m ∈ [Msg.human ("q".toList),
        Msg.ai [] [⟨some ("1".toList),
          some ⟨some ("get_product_kv_pairs_tool".toList), none⟩⟩] false,
        Msg.tool ("r".toList) ("1".toList),
        Msg.ai ("a".toList) [] false],
      ∀ tc ∈ toolCallsOfMsg m, (tcFunctionName tc).isSome = true) ∧
    ((extractMetadataFromAnswer ("ok\nEvidence: E1".toList)
        [Msg.human ("q".toList),
         Msg.ai [] [⟨some ("1".toList),
           some ⟨some ("get_product_kv_pairs_tool".toList), none⟩⟩] false,
         Msg.tool ("r".toList) ("1".toList),
         Msg.ai ("a".toList) [] false]).grounded = true ↔
      ((∃ m ∈ [Msg.human ("q".toList),
          Msg.ai [] [⟨some ("1".toList),
            some ⟨some ("get_product_kv_pairs_tool".toList), none⟩⟩] false,
          Msg.tool ("r".toList) ("1".toList),
          Msg.ai ("a".toList) [] false], isAiWithToolCalls m = true) ∧
        parseEvidence ("ok\nEvidence: E1".toList) ≠ [])) :=
  ⟨by decide,
   (C2_grounded_iff ("ok\nEvidence: E1".toList) _ (by decide) (by decide)).1⟩

/-! ### Claim C7: the per-product pair cap of the key-value tool -/

/-- A product document with exactly 50 flattened pairs. -/
def p50ex : Json := Json.obj [("a".toList, Json.arr (List.replicate 50 (Json.num 1)))]

/-- Claim C7 as stated fails: with `limit = 50` a product holding
exactly 50 pairs — the cap is reached but never exceeded, no pair is
dropped — still comes back with `truncated = true` (and the document
flag set), because the source flags when the count reaches
`max(50, limit)` (`cnt >= max(50, limit)` right after the append). -/
theorem C7_counterexample :
    getProductKvPairs (Json.arr [p50ex]) none 50 =
      .ok ([{ designation := "unknown".toList
            , kv := (flatten p50ex).take 50
            , truncated := true }], true) ∧
    (flatten p50ex).length = 50 := ⟨rfl, rfl⟩

/-- Reading off one processed product. -/
theorem kvProcess_some {dsg : Option (List Char)} {limit : Int} {prod : Json}
    {it : KvItem} (h : kvProcess dsg limit prod = some it) :
    it.kv = (flatten prod).take (kvCap limit).toNat ∧
    (it.truncated = true ↔ kvCap limit ≤ ((flatten prod).length : Int)) := by
  cases prod with
  | obj fields =>
    simp only [kvProcess] at h
    split at h
    · cases h
      refine ⟨rfl, ?_⟩
      simp [ge_iff_le]
    · cases h
  | null => cases h
  | bool b => cases h
  | num n => cases h
  | str s => cases h
  | arr xs => cases h

/-- Claim C7 (amended): the tool emits at most `max(50, limit)` pairs
per product (`limit` defaults to 200 in the tool signature); the
per-product `truncated` flag is set exactly when the product has at
least `max(50, limit)` flattened pairs, i.e. when the emission was cut
at the cap — also when no pair beyond the cap existed; the
document-level flag is set exactly when some returned item is
truncated. -/
theorem C7_kv_limit (prods : List Json) (dsg : Option (List Char)) (limit : Int) :
    ∃ items flag,
      getProductKvPairs (Json.arr prods) dsg limit = .ok (items, flag) ∧
      flag = items.any (fun it => it.truncated) ∧
      kvDefaultLimit = 200 ∧
      (∀ it ∈ items, it.kv.length ≤ (kvCap limit).toNat) ∧
      (∀ it ∈ items, ∃ prod ∈ prods,
        it.kv = (flatten prod).take (kvCap limit).toNat ∧
        (it.truncated = true ↔ kvCap limit ≤ ((flatten prod).length : Int))) := by
  refine ⟨prods.filterMap (kvProcess dsg limit), _, rfl, rfl, rfl, ?_, ?_⟩
  · intro it hit
    obtain ⟨prod, hmem, hp⟩ := List.mem_filterMap.mp hit
    rw [(kvProcess_some hp).1]
    exact List.length_take_le _ _
  · intro it hit
    obtain ⟨prod, hmem, hp⟩ := List.mem_filterMap.mp hit
    exact ⟨prod, hmem, kvProcess_some hp⟩

/-! ### Claim C8: the designation filter of the key-value tool -/

/-- A product with no resolvable identifier. -/
def prodNoId : Json := Json.obj [("foo".toList, Json.num 1)]

/-- Claim C8 as stated fails: querying for designation "6205", a product
whose identifier cannot be resolved (`_designation_of` returns `None`)
is nevertheless returned (as "unknown"), so the items are not exactly
the products whose resolved identifier equals the argument — the filter
at src/shared/tools.py line 188 requires `designation and d` before
comparing, letting identifier-less products through. -/
theorem C8_counterexample :
    designationOf [("foo".toList, Json.num 1)] = none ∧
    getProductKvPairs (Json.arr [prodNoId]) (some ("6205".toList)) 200 =
      .ok ([{ designation := "unknown".toList
            , kv := flatten prodNoId
            , truncated := false }], false) := ⟨rfl, rfl⟩

/-- Claim C8 (amended): with a non-empty designation argument, the
returned items are exactly the object products whose resolved
identifier — via the fallback chain of `_designation_of` — either
equals the argument under lowercased, whitespace-trimmed comparison,
or could not be resolved at all (such products pass the filter and are
labelled "unknown"). -/
theorem C8_designation_filter (prods : List Json) (dsg : List Char) (limit : Int)
    (h : dsg ≠ []) :
    ∃ items flag,
      getProductKvPairs (Json.arr prods) (some dsg) limit = .ok (items, flag) ∧
      items = prods.filterMap (fun prod =>
        match prod with
        | Json.obj fields =>
          if (match designationOf fields with
              | some dd => decide (pstrip (lowerStr dd) = pstrip (lowerStr dsg))
              | none => true) then
            some { designation := (designationOf fields).getD ("unknown".toList)
                 , kv := (flatten prod).take (kvCap limit).toNat
                 , truncated := decide (((flatten prod).length : Int) ≥ kvCap limit) }
          else none
        | _ => none) := by
  refine ⟨_, _, rfl, ?_⟩
  have hne : dsg.isEmpty = false := by
    cases hc : dsg.isEmpty
    · rfl
    · exact absurd (by simpa [List.isEmpty_iff] using hc) h
  congr 1
  funext prod
  cases prod with
  | obj fields =>
    simp only [kvProcess, hne]
    cases designationOf fields with
    | some dd => simp [h]
    | none => simp
  | null => rfl
  | bool b => rfl
  | num n => rfl
  | str s => rfl
  | arr xs => rfl

theorem C8_designation_filter_witness :
    ("6205".toList ≠ ([] : List Char)) ∧
    (∃ items flag,
      getProductKvPairs (Json.arr []) (some ("6205".toList)) 200 = .ok (items, flag) ∧
      items = ([] : List Json).filterMap (fun prod =>
        match prod with
        | Json.obj fields =>
          if (match designationOf fields with
              | some dd => decide (pstrip (lowerStr dd) =
                  pstrip (lowerStr ("6205".toList)))
              | none => true) then
            some { designation := (designationOf fields).getD ("unknown".toList)
                 , kv := (flatten prod).take (kvCap 200).toNat
                 , truncated := decide (((flatten prod).length : Int) ≥ kvCap 200) }
          else none
        | _ => none)) :=
  ⟨by decide, C8_designation_filter [] ("6205".toList) 200 (by decide)⟩

/-! ### Claim C4: the context extractor -/

/-- The designation contributed by one tool-call entry: present when the
entry has parsed object arguments, its tool name contains "product" or
"kv" (lowercased), and a truthy `designation` argument exists. -/
def tcDesig (tc : ToolCall) : Option Json :=
  match tc.function with
  | none => none
  | some f =>
    match f.arguments with
    | some (.obj args) =>
      if containsSub ("product".toList) (lowerStr (f.name.getD [])) ||
          containsSub ("kv".toList) (lowerStr (f.name.getD [])) then
        match lookupKV args ("designation".toList) with
        | some v => if jTruthy v then some v else none
        | none => none
      else none
    | _ => none

/-- The field contributed by one tool-call entry: a truthy `field`
argument of any tool (no name restriction). -/
def tcField (tc : ToolCall) : Option Json :=
  match tc.function with
  | none => none
  | some f =>
    match f.arguments with
    | some (.obj args) =>
      match lookupKV args ("field".toList) with
      | some v => if jTruthy v then some v else none
      | none => none
    | _ => none

/-- All designations contributed by one assistant turn, in entry order. -/
def turnDesigs (tcs : List ToolCall) : List Json := tcs.filterMap tcDesig

/-- The last field contributed by one assistant turn. -/
def turnField (tcs : List ToolCall) : Option Json := (tcs.filterMap tcField).getLast?

/-- The tool-call lists of the assistant turns with truthy tool calls,
in list order. -/
def aiToolTurns (msgs : List Msg) : List (List ToolCall) := msgs.filterMap aiToolCallsOf

/-- The turns the backward scan actually processes: every turn up to and
including the first one contributing a designation. -/
def scannedTurns : List (List ToolCall) → List (List ToolCall)
  | [] => []
  | t :: ts => if (turnDesigs t).isEmpty then t :: scannedTurns ts else [t]

theorem filterMap_cons_toList {α β : Type _} (g : α → Option β) (a : α) (l : List α) :
    List.filterMap g (a :: l) = (g a).toList ++ List.filterMap g l := by
  cases h : g a <;> simp [List.filterMap_cons, h]

theorem elim_getLast?_append {α : Type _} (t : Option α) (L : List α) (f : Option α) :
    (((t.toList ++ L).getLast?).elim f some : Option α) =
      (L.getLast?).elim (t.elim f some) some := by
  cases t with
  | none => rfl
  | some v =>
    rw [show (some v).toList ++ L = [v] ++ L from rfl, List.getLast?_append]
    cases L.getLast? <;> rfl

theorem ctxStep_eq (st : List Json × Option Json) (tc : ToolCall) :
    ctxStep st tc = (st.1 ++ (tcDesig tc).toList, (tcField tc).elim st.2 some) := by
  obtain ⟨ds, f0⟩ := st
  obtain ⟨cid, fn⟩ := tc
  cases fn with
  | none => simp [ctxStep, tcDesig, tcField]
  | some f =>
    obtain ⟨nm, args⟩ := f
    cases args with
    | none => simp [ctxStep, tcDesig, tcField]
    | some j =>
      cases j with
      | obj kvs =>
        simp only [ctxStep, tcDesig, tcField]
        by_cases hname : (containsSub ("product".toList) (lowerStr (nm.getD [])) ||
            containsSub ("kv".toList) (lowerStr (nm.getD []))) = true
        · simp only [hname, if_true]
          cases hdes : lookupKV kvs ("designation".toList) with
          | none =>
            cases hfld : lookupKV kvs ("field".toList) with
            | none => simp
            | some v => by_cases ht : jTruthy v <;> simp [ht]
          | some v =>
            by_cases ht : jTruthy v
            · cases hfld : lookupKV kvs ("field".toList) with
              | none => simp [ht]
              | some w => by_cases ht2 : jTruthy w <;> simp [ht, ht2]
            · cases hfld : lookupKV kvs ("field".toList) with
              | none => simp [ht]
              | some w => by_cases ht2 : jTruthy w <;> simp [ht, ht2]
        · rw [Bool.not_eq_true] at hname
          simp only [hname, Bool.false_eq_true, if_false]
          cases hfld : lookupKV kvs ("field".toList) with
          | none => simp
          | some v => by_cases ht : jTruthy v <;> simp [ht]
      | null => simp [ctxStep, tcDesig, tcField]
      | bool b => simp [ctxStep, tcDesig, tcField]
      | num n => simp [ctxStep, tcDesig, tcField]
      | str s => simp [ctxStep, tcDesig, tcField]
      | arr xs => simp [ctxStep, tcDesig, tcField]

theorem foldl_ctxStep (tcs : List ToolCall) (ds : List Json) (f : Option Json) :
    tcs.foldl ctxStep (ds, f) =
      (ds ++ turnDesigs tcs, (turnField tcs).elim f some) := by
  induction tcs generalizing ds f with
  | nil => simp [turnDesigs, turnField]
  | cons tc rest ih =>
    rw [List.foldl_cons, ctxStep_eq, ih]
    have hfst : ds ++ (tcDesig tc).toList ++ turnDesigs rest =
        ds ++ turnDesigs (tc :: rest) := by
      rw [List.append_assoc]
      congr 1
      simp only [turnDesigs, List.filterMap_cons]
      cases tcDesig tc <;> simp
    have hsnd : (turnField rest).elim ((tcField tc).elim f some) some =
        (turnField (tc :: rest)).elim f some := by
      simp only [turnField, List.filterMap_cons]
      cases hf : tcField tc with
      | none => rfl
      | some v =>
        have : (v :: rest.filterMap tcField).getLast? =
            (rest.filterMap tcField).getLast?.or (some v) := by
          have h1 : v :: rest.filterMap tcField = [v] ++ rest.filterMap tcField := rfl
          rw [h1, List.getLast?_append]
          rfl
        rw [this]
        cases hlast : (rest.filterMap tcField).getLast? <;> simp
    rw [hfst, hsnd]

theorem scanCtx_spec (rmsgs : List Msg) : ∀ (f : Option Json),
    scanCtx rmsgs [] f =
      ( ((aiToolTurns rmsgs).find? (fun t => !(turnDesigs t).isEmpty)).elim [] turnDesigs
      , (((scannedTurns (aiToolTurns rmsgs)).filterMap turnField).getLast?).elim f some ) := by
  induction rmsgs with
  | nil => intro f; simp [scanCtx, aiToolTurns, scannedTurns]
  | cons m rest ih =>
    intro f
    cases m with
    | ai c tcs fc =>
      simp only [aiToolTurns] at ih ⊢
      by_cases h : tcs.isEmpty
      · simp only [scanCtx, h, if_true]
        simp only [List.filterMap_cons, aiToolCallsOf, h, if_true]
        exact ih f
      · simp only [scanCtx, h, Bool.false_eq_true, if_false]
        simp only [List.filterMap_cons, aiToolCallsOf, h, Bool.false_eq_true,
          if_false]
        rw [foldl_ctxStep tcs [] f]
        simp only [List.nil_append]
        by_cases hds : (turnDesigs tcs).isEmpty
        · have hdsl : turnDesigs tcs = [] := by simpa [List.isEmpty_iff] using hds
          simp only [hdsl, List.isEmpty_nil, if_true]
          rw [ih ((turnField tcs).elim f some)]
          rw [List.find?_cons_of_neg _ (by simp [hdsl])]
          refine congrArg _ ?_
          have hscan : scannedTurns (tcs :: List.filterMap aiToolCallsOf rest) =
              tcs :: scannedTurns (List.filterMap aiToolCallsOf rest) := by
            simp [scannedTurns, hdsl]
          rw [hscan, filterMap_cons_toList, elim_getLast?_append]
        · simp only [hds, Bool.false_eq_true, if_false]
          rw [List.find?_cons_of_pos _ (by simpa using hds)]
          refine Prod.ext rfl ?_
          have hscan : scannedTurns (tcs :: List.filterMap aiToolCallsOf rest) = [tcs] := by
            simp [scannedTurns, hds]
          rw [hscan, filterMap_cons_toList, List.filterMap_nil, List.append_nil]
          cases htf : turnField tcs <;> rfl
    | system c =>
      simp only [scanCtx, aiToolTurns, List.filterMap_cons, aiToolCallsOf]
      exact ih f
    | human c =>
      simp only [scanCtx, aiToolTurns, List.filterMap_cons, aiToolCallsOf]
      exact ih f
    | tool c tid =>
      simp only [scanCtx, aiToolTurns, List.filterMap_cons, aiToolCallsOf]
      exact ih f

/-- Claim C4 as stated fails on both field clauses: a history whose only
tool-using assistant turn contributes no designation but carries a
`field` argument returns that field rather than "no field" (the source
keeps updating `last_field` while scanning the whole history when no
designation is ever found). -/
theorem C4_counterexample :
    extractContextFromHistory
      [ Msg.ai [] [⟨none, some ⟨some ("time_tool".toList),
          some (Json.obj [("field".toList, Json.str ("height".toList))])⟩⟩] false ]
      = ([], some (Json.str ("height".toList))) := rfl

/-- Claim C4 (amended): the context extractor scans newest-to-oldest
and, at the first assistant turn (walking backward) that issued tool
calls whose tool name contains "product" or "kv" and whose arguments
include a truthy designation, collects the designations of that turn in
encounter order capped at 3; `last_field` is the field assignment that
survives the backward scan — each scanned turn (also one naming no
product/kv tool, and also after the stopping turn is reached) overwrites
it with its own last truthy `field` argument, so the oldest scanned turn
wins, and when no turn yields a designation the whole history is
scanned and the field of its oldest field-carrying tool turn is
returned (`none` only when no truthy field argument occurs at all);
no designation anywhere yields the empty list without error. -/
theorem C4_context_extractor (messages : List Msg) :
    extractContextFromHistory messages =
      ( (((aiToolTurns messages.reverse).find?
            (fun t => !(turnDesigs t).isEmpty)).elim [] turnDesigs).take 3
      , ((scannedTurns (aiToolTurns messages.reverse)).filterMap turnField).getLast? ) := by
  unfold extractContextFromHistory
  rw [scanCtx_spec messages.reverse none]
  refine Prod.ext rfl ?_
  cases ((scannedTurns (aiToolTurns messages.reverse)).filterMap turnField).getLast?
    <;> rfl

/-! ### Claims C5 and C6 preliminaries: decimal digits and path tokens -/

theorem natDigits_ne_nil (n : Nat) : natDigits n ≠ [] := by
  rw [natDigits_eq]
  by_cases h : n < 10 <;> simp [h]

theorem digitChar_inj_lt : ∀ d1 < 10, ∀ d2 < 10,
    digitChar d1 = digitChar d2 → d1 = d2 := by decide

theorem digitChar_ne_sep : ∀ d < 10,
    digitChar d ≠ '.' ∧ digitChar d ≠ '[' ∧ digitChar d ≠ ']' := by decide

theorem natDigits_chars (n : Nat) :
    ∀ c ∈ natDigits n, ∃ d, d < 10 ∧ c = digitChar d := by
  induction n using Nat.strong_induction_on with
  | _ n ih =>
    intro c hc
    rw [natDigits_eq] at hc
    by_cases h : n < 10
    · simp only [h, if_true, List.mem_singleton] at hc
      exact ⟨n, h, hc⟩
    · simp only [h, if_false, List.mem_append, List.mem_singleton] at hc
      rcases hc with hc | hc
      · exact ih (n / 10) (Nat.div_lt_self (by omega) (by omega)) c hc
      · exact ⟨n % 10, Nat.mod_lt n (by omega), hc⟩

theorem natDigits_no_rbracket (n : Nat) : ']' ∉ natDigits n := by
  intro hmem
  obtain ⟨d, hd, hc⟩ := natDigits_chars n ']' hmem
  exact (digitChar_ne_sep d hd).2.2 hc.symm

theorem natDigits_inj : ∀ (n1 n2 : Nat), natDigits n1 = natDigits n2 → n1 = n2 := by
  intro n1
  induction n1 using Nat.strong_induction_on with
  | _ n1 ih =>
    intro n2 h
    rw [natDigits_eq, natDigits_eq n2] at h
    by_cases h1 : n1 < 10 <;> by_cases h2 : n2 < 10
    · simp only [h1, h2, if_true, List.cons.injEq] at h
      exact digitChar_inj_lt n1 h1 n2 h2 h.1
    · simp only [h1, h2, if_true, if_false] at h
      exfalso
      have hlen := congrArg List.length h
      rw [List.length_append] at hlen
      simp only [List.length_singleton] at hlen
      have hpos : 0 < (natDigits (n2 / 10)).length := by
        cases hd : natDigits (n2 / 10) with
        | nil => exact absurd hd (natDigits_ne_nil _)
        | cons a l => simp [hd]
      omega
    · simp only [h1, h2, if_true, if_false] at h
      exfalso
      have hlen := congrArg List.length h
      rw [List.length_append] at hlen
      simp only [List.length_singleton] at hlen
      have hpos : 0 < (natDigits (n1 / 10)).length := by
        cases hd : natDigits (n1 / 10) with
        | nil => exact absurd hd (natDigits_ne_nil _)
        | cons a l => simp [hd]
      omega
    · simp only [h1, h2, if_false] at h
      obtain ⟨hpre, hsuf⟩ := List.append_inj' h (by simp)
      have hdiv : n1 / 10 = n2 / 10 :=
        ih (n1 / 10) (Nat.div_lt_self (by omega) (by omega)) (n2 / 10) hpre
      have hmod : n1 % 10 = n2 % 10 := by
        have := List.cons.injEq (digitChar (n1 % 10)) [] (digitChar (n2 % 10)) []
        simp only [List.cons.injEq, and_true] at hsuf
        exact digitChar_inj_lt _ (Nat.mod_lt n1 (by omega)) _ (Nat.mod_lt n2 (by omega)) hsuf
      omega

/-- Keys usable in unambiguous flattened paths: non-empty and free of
the path metacharacters. -/
def goodKey (k : List Char) : Bool :=
  !k.isEmpty && k.all (fun c => !(c = '.' || c = '[' || c = ']'))

theorem goodKey_ne_nil {k : List Char} (h : goodKey k = true) : k ≠ [] := by
  intro hk
  subst hk
  simp [goodKey] at h

theorem goodKey_chars {k : List Char} (h : goodKey k = true) :
    ∀ c ∈ k, c ≠ '.' ∧ c ≠ '[' ∧ c ≠ ']' := by
  simp only [goodKey, Bool.and_eq_true, List.all_eq_true] at h
  intro c hc
  have := h.2 c hc
  simp only [Bool.not_eq_true', Bool.or_eq_false_iff, decide_eq_false_iff_not] at this
  exact ⟨this.1.1, this.1.2, this.2⟩

/-- Documents whose object keys are all good and duplicate-free, at
every nesting level (the class on which flattened paths are
unambiguous). -/
def keysNodup : List (List Char) → Bool
  | [] => true
  | k :: ks => !ks.contains k && keysNodup ks

mutual
def goodJson : Json → Bool
  | .null => true
  | .bool _ => true
  | .num _ => true
  | .str _ => true
  | .arr xs => goodArr xs
  | .obj kvs => keysNodup (kvs.map (fun kv => kv.1)) && goodObj kvs
def goodArr : List Json → Bool
  | [] => true
  | x :: xs => goodJson x && goodArr xs
def goodObj : List (List Char × Json) → Bool
  | [] => true
  | kv :: kvs => goodKey kv.1 && goodJson kv.2 && goodObj kvs
end

theorem keysNodup_iff (ks : List (List Char)) : keysNodup ks = true ↔ ks.Nodup := by
  induction ks with
  | nil => simp [keysNodup]
  | cons k ks ih =>
    simp only [keysNodup, Bool.and_eq_true, Bool.not_eq_true', List.nodup_cons, ih]
    constructor
    · rintro ⟨h1, h2⟩
      refine ⟨?_, h2⟩
      intro hmem
      rw [List.contains_eq_any_beq] at h1
      have : ks.any (fun a => k == a) = true :=
        List.any_eq_true.mpr ⟨k, hmem, by simp⟩
      rw [this] at h1
      cases h1
    · rintro ⟨h1, h2⟩
      refine ⟨?_, h2⟩
      rw [List.contains_eq_any_beq]
      rw [Bool.eq_false_iff]
      intro hany
      obtain ⟨a, ha, hbeq⟩ := List.any_eq_true.mp hany
      rw [beq_iff_eq] at hbeq
      exact h1 (hbeq ▸ ha)

theorem goodArr_mem {xs : List Json} (h : goodArr xs = true) :
    ∀ x ∈ xs, goodJson x = true := by
  induction xs with
  | nil => simp
  | cons x xs ih =>
    simp only [goodArr, Bool.and_eq_true] at h
    intro y hy
    rcases List.mem_cons.mp hy with rfl | hy
    · exact h.1
    · exact ih h.2 y hy

theorem goodObj_mem {kvs : List (List Char × Json)} (h : goodObj kvs = true) :
    ∀ kv ∈ kvs, goodKey kv.1 = true ∧ goodJson kv.2 = true := by
  induction kvs with
  | nil => simp
  | cons kv kvs ih =>
    simp only [goodObj, Bool.and_eq_true] at h
    intro e he
    rcases List.mem_cons.mp he with rfl | he
    · exact ⟨h.1.1, h.1.2⟩
    · exact ih h.2 e he

/-- The language of path extensions below a node: a concatenation of
`.key` and `[index]` tokens. -/
inductive Ext : List Char → Prop where
  | nil : Ext []
  | key (k s : List Char) : goodKey k = true → Ext s → Ext ('.' :: (k ++ s))
  | idx (n : Nat) (s : List Char) : Ext s → Ext ('[' :: (natDigits n ++ ']' :: s))

theorem Ext.head_sep {s : List Char} (he : Ext s) :
    ∀ c t, s = c :: t → c = '.' ∨ c = '[' := by
  cases he with
  | nil => intro c t h; cases h
  | key k s hk hs => intro c t h; left; exact (List.cons.injEq _ _ _ _ ▸ h).1.symm ▸ rfl
  | idx n s hs => intro c t h; right; exact (List.cons.injEq _ _ _ _ ▸ h).1.symm ▸ rfl

/-- Unique decoding of a good key followed by an extension. -/
theorem key_ext_inj {k1 k2 s1 s2 : List Char}
    (hk1 : goodKey k1 = true) (hk2 : goodKey k2 = true)
    (he1 : Ext s1) (he2 : Ext s2) (h : k1 ++ s1 = k2 ++ s2) :
    k1 = k2 ∧ s1 = s2 := by
  rcases List.append_eq_append_iff.mp h with ⟨m, hm1, hm2⟩ | ⟨m, hm1, hm2⟩
  · cases m with
    | nil => simp at hm1 hm2; exact ⟨hm1.symm, hm2⟩
    | cons c t =>
      exfalso
      have hc : c ∈ k2 := by rw [hm1]; simp
      have hsep := goodKey_chars hk2 c hc
      rcases he1.head_sep c (t ++ s2) hm2 with h | h
      · exact hsep.1 h
      · exact hsep.2.1 h
  · cases m with
    | nil => simp at hm1 hm2; exact ⟨hm1, hm2.symm⟩
    | cons c t =>
      exfalso
      have hc : c ∈ k1 := by rw [hm1]; simp
      have hsep := goodKey_chars hk1 c hc
      rcases he2.head_sep c (t ++ s1) hm2 with h | h
      · exact hsep.1 h
      · exact hsep.2.1 h

/-- Unique decoding of a bracketed index. -/
theorem digits_bracket_inj {n1 n2 : Nat} {s1 s2 : List Char}
    (h : natDigits n1 ++ ']' :: s1 = natDigits n2 ++ ']' :: s2) :
    n1 = n2 ∧ s1 = s2 := by
  rcases List.append_eq_append_iff.mp h with ⟨m, hm1, hm2⟩ | ⟨m, hm1, hm2⟩
  · cases m with
    | nil =>
      simp only [List.append_nil] at hm1
      simp only [List.nil_append, List.cons.injEq] at hm2
      exact ⟨natDigits_inj _ _ hm1.symm, hm2.2⟩
    | cons c t =>
      exfalso
      have hc : c ∈ natDigits n2 := by rw [hm1]; simp
      have : c = ']' := by
        have := List.cons.injEq ']' s1 c (t ++ (']' :: s2))
        rw [hm2] at this
        simp at this
        exact this.1.symm
      exact natDigits_no_rbracket n2 (this ▸ hc)
  · cases m with
    | nil =>
      simp only [List.append_nil] at hm1
      simp only [List.nil_append, List.cons.injEq] at hm2
      exact ⟨natDigits_inj _ _ hm1, hm2.2.symm⟩
    | cons c t =>
      exfalso
      have hc : c ∈ natDigits n1 := by rw [hm1]; simp
      have : c = ']' := by
        have := List.cons.injEq ']' s2 c (t ++ (']' :: s1))
        rw [hm2] at this
        simp at this
        exact this.1.symm
      exact natDigits_no_rbracket n1 (this ▸ hc)

/-! ### Claim C5: duplicate-free paths -/

/-- The recurrence of `leavesAt`, with the membership bookkeeping of its
definition removed. -/
theorem leavesAt_eq (path : List Char) (node : Json) :
    leavesAt path node =
      if isContainer node then
        (childEntries path node).flatMap
          (fun e => if isContainer e.2 then leavesAt e.1 e.2 else [e])
      else [((if path.isEmpty then ['$'] else path), node)] := by
  rw [leavesAt]
  by_cases h : isContainer node
  · simp only [h, if_true]
    rw [List.flatMap_def, List.flatMap_def]
    exact congrArg List.flatten
      (List.attach_map_val (childEntries path node)
        (fun e => if isContainer e.2 then leavesAt e.1 e.2 else [e]))
  · simp [h]

def isArrJ : Json → Bool
  | .arr _ => true
  | _ => false

theorem childPathObj_of_ne {p : List Char} (hp : p ≠ []) (k : List Char) :
    childPathObj p k = p ++ '.' :: k := by
  unfold childPathObj
  rw [if_neg (by simpa [List.isEmpty_iff] using hp)]

theorem cons_append_ne_nil (p : List Char) (c : Char) (w : List Char) :
    p ++ c :: w ≠ [] := by
  cases p <;> simp

/-- Disjointness of the per-child branches, given unique-prefix shapes
and pairwise undecodable child paths. -/
theorem flatMap_paths_nodup (ce : List (List Char × Json))
    (F : (List Char × Json) → List (List Char × Json))
    (hnd : ∀ e ∈ ce, ((F e).map Prod.fst).Nodup)
    (hshape : ∀ e ∈ ce, ∀ q ∈ (F e).map Prod.fst, ∃ s, Ext s ∧ q = e.1 ++ s)
    (htok : List.Pairwise (fun e1 e2 => ∀ s1 s2, Ext s1 → Ext s2 →
        e1.1 ++ s1 ≠ e2.1 ++ s2) ce) :
    ((ce.flatMap F).map Prod.fst).Nodup := by
  rw [List.map_flatMap, List.nodup_flatMap]
  refine ⟨fun e he => hnd e he, ?_⟩
  refine htok.imp_of_mem ?_
  intro e1 e2 h1 h2 hne
  intro q hq1 hq2
  obtain ⟨s1, hs1, rfl⟩ := hshape e1 h1 q hq1
  obtain ⟨s2, hs2, heq⟩ := hshape e2 h2 _ hq2
  exact hne s1 s2 hs1 hs2 heq

theorem objTok_ne {p k1 k2 : List Char} (hp : p ≠ [])
    (hk1 : goodKey k1 = true) (hk2 : goodKey k2 = true) (hne : k1 ≠ k2) :
    ∀ s1 s2, Ext s1 → Ext s2 →
      childPathObj p k1 ++ s1 ≠ childPathObj p k2 ++ s2 := by
  intro s1 s2 he1 he2 h
  rw [childPathObj_of_ne hp, childPathObj_of_ne hp, List.append_assoc,
    List.append_assoc] at h
  have h2 := List.append_cancel_left h
  simp only [List.cons_append, List.cons.injEq, true_and] at h2
  exact hne (key_ext_inj hk1 hk2 he1 he2 h2).1

theorem arrTok_ne {p : List Char} {i1 i2 : Nat} (hne : i1 ≠ i2) :
    ∀ s1 s2, Ext s1 → Ext s2 →
      childPathArr p i1 ++ s1 ≠ childPathArr p i2 ++ s2 := by
  intro s1 s2 _ _ h
  apply hne
  unfold childPathArr at h
  rw [List.append_assoc, List.append_assoc] at h
  have h2 := List.append_cancel_left h
  simp only [List.cons_append, List.cons.injEq, true_and, List.append_assoc,
    List.singleton_append] at h2
  exact (digits_bracket_inj h2).1

theorem le_fst_of_mem_enumFrom {α : Type _} :
    ∀ (l : List α) (i : Nat) (b : Nat × α), b ∈ List.enumFrom i l → i ≤ b.1 := by
  intro l
  induction l with
  | nil => intro i b h; cases h
  | cons x xs ih =>
    intro i b h
    rcases List.mem_cons.mp h with rfl | h
    · exact le_refl _
    · exact le_trans (by omega) (ih (i + 1) b h)

theorem snd_mem_of_mem_enumFrom {α : Type _} :
    ∀ (l : List α) (i : Nat) (b : Nat × α), b ∈ List.enumFrom i l → b.2 ∈ l := by
  intro l
  induction l with
  | nil => intro i b h; cases h
  | cons x xs ih =>
    intro i b h
    rcases List.mem_cons.mp h with rfl | h
    · exact List.mem_cons_self _ _
    · exact List.mem_cons_of_mem _ (ih (i + 1) b h)

theorem pairwise_fst_ne_enumFrom {α : Type _} :
    ∀ (l : List α) (i : Nat),
      List.Pairwise (fun a b => a.1 ≠ b.1) (List.enumFrom i l) := by
  intro l
  induction l with
  | nil => intro i; exact List.Pairwise.nil
  | cons x xs ih =>
    intro i
    refine List.Pairwise.cons ?_ (ih (i + 1))
    intro b hb
    have := le_fst_of_mem_enumFrom xs (i + 1) b hb
    omega

/-- Core lemma for C5: below a non-root path (or below an array at any
path), the leaf paths of a good container are duplicate-free and all
strictly extend the node path within the token language. -/
theorem leaves_nodup_ext : ∀ (N : Nat) (n : Json), jsize n ≤ N →
    ∀ (p : List Char), goodJson n = true → isContainer n = true →
    (p ≠ [] ∨ isArrJ n = true) →
    (((leavesAt p n).map Prod.fst).Nodup ∧
     ∀ q ∈ (leavesAt p n).map Prod.fst, ∃ s, Ext s ∧ s ≠ [] ∧ q = p ++ s) := by
  intro N
  induction N with
  | zero =>
    intro n hn
    have := jsize_pos n
    omega
  | succ N ih =>
    intro n hn p hg hc hdis
    cases n with
    | null => simp [isContainer] at hc
    | bool b => simp [isContainer] at hc
    | num m => simp [isContainer] at hc
    | str s => simp [isContainer] at hc
    | arr xs =>
      rw [leavesAt_eq]
      simp only [isContainer, if_true]
      have hce : childEntries p (.arr xs) =
          xs.enum.map (fun iv => (childPathArr p iv.1, iv.2)) := rfl
      -- facts about one child entry
      have hchild : ∀ e ∈ childEntries p (.arr xs),
          (((if isContainer e.2 then leavesAt e.1 e.2 else [e]).map Prod.fst).Nodup ∧
           ∀ q ∈ (if isContainer e.2 then leavesAt e.1 e.2 else [e]).map Prod.fst,
             ∃ s, Ext s ∧ q = e.1 ++ s) ∧
          ∀ q ∈ (if isContainer e.2 then leavesAt e.1 e.2 else [e]).map Prod.fst,
            ∃ s, Ext s ∧ s ≠ [] ∧ q = p ++ s := by
        intro e he
        rw [hce] at he
        obtain ⟨iv, hiv, rfl⟩ := List.mem_map.mp he
        have hv : iv.2 ∈ xs := snd_mem_of_mem_enumFrom xs 0 iv hiv
        have hvg : goodJson iv.2 = true := by
          simp only [goodJson] at hg
          exact goodArr_mem hg iv.2 hv
        have hsize : jsize iv.2 ≤ N := by
          have := jsize_lt_of_mem_childEntries (hce ▸ he)
          simp only at this
          omega
        have hpathne : childPathArr p iv.1 ≠ [] := by
          unfold childPathArr
          exact cons_append_ne_nil _ _ _
        by_cases hcont : isContainer iv.2
        · have hrec := ih iv.2 hsize (childPathArr p iv.1) hvg hcont (Or.inl hpathne)
          simp only [hcont, if_true]
          refine ⟨⟨hrec.1, ?_⟩, ?_⟩
          · intro q hq
            obtain ⟨s, hs, _, rfl⟩ := hrec.2 q hq
            exact ⟨s, hs, rfl⟩
          · intro q hq
            obtain ⟨s, hs, _, rfl⟩ := hrec.2 q hq
            refine ⟨'[' :: (natDigits iv.1 ++ ']' :: s), Ext.idx iv.1 s hs, by simp, ?_⟩
            unfold childPathArr
            simp [List.append_assoc]
        · simp only [hcont, Bool.false_eq_true, if_false]
          refine ⟨⟨by simp, ?_⟩, ?_⟩
          · intro q hq
            simp only [List.map_cons, List.map_nil, List.mem_singleton] at hq
            exact ⟨[], Ext.nil, by simp [hq]⟩
          · intro q hq
            simp only [List.map_cons, List.map_nil, List.mem_singleton] at hq
            refine ⟨'[' :: (natDigits iv.1 ++ [']']), Ext.idx iv.1 [] Ext.nil, by simp, ?_⟩
            rw [hq]
            unfold childPathArr
            rfl
      constructor
      · apply flatMap_paths_nodup
        · intro e he; exact (hchild e he).1.1
        · intro e he; exact (hchild e he).1.2
        · rw [hce]
          rw [List.pairwise_map]
          refine (pairwise_fst_ne_enumFrom xs 0).imp ?_
          intro a b hab
          exact arrTok_ne hab
      · intro q hq
        rw [List.map_flatMap] at hq
        obtain ⟨e, he, hqe⟩ := List.mem_flatMap.mp hq
        exact (hchild e he).2 q hqe
    | obj kvs =>
      have hp : p ≠ [] := by
        rcases hdis with h | h
        · exact h
        · simp [isArrJ] at h
      rw [leavesAt_eq]
      simp only [isContainer, if_true]
      have hce : childEntries p (.obj kvs) =
          kvs.map (fun kv => (childPathObj p kv.1, kv.2)) := rfl
      have hgood : keysNodup (kvs.map (fun kv => kv.1)) = true ∧ goodObj kvs = true := by
        simpa [goodJson, Bool.and_eq_true] using hg
      have hchild : ∀ e ∈ childEntries p (.obj kvs),
          (((if isContainer e.2 then leavesAt e.1 e.2 else [e]).map Prod.fst).Nodup ∧
           ∀ q ∈ (if isContainer e.2 then leavesAt e.1 e.2 else [e]).map Prod.fst,
             ∃ s, Ext s ∧ q = e.1 ++ s) ∧
          ∀ q ∈ (if isContainer e.2 then leavesAt e.1 e.2 else [e]).map Prod.fst,
            ∃ s, Ext s ∧ s ≠ [] ∧ q = p ++ s := by
        intro e he
        rw [hce] at he
        obtain ⟨kv, hkv, rfl⟩ := List.mem_map.mp he
        obtain ⟨hkk, hkg⟩ := goodObj_mem hgood.2 kv hkv
        have hsize : jsize kv.2 ≤ N := by
          have := jsize_lt_of_mem_childEntries (hce ▸ he)
          simp only at this
          omega
        have hpathne : childPathObj p kv.1 ≠ [] := by
          rw [childPathObj_of_ne hp]
          exact cons_append_ne_nil _ _ _
        by_cases hcont : isContainer kv.2
        · have hrec := ih kv.2 hsize (childPathObj p kv.1) hkg hcont (Or.inl hpathne)
          simp only [hcont, if_true]
          refine ⟨⟨hrec.1, ?_⟩, ?_⟩
          · intro q hq
            obtain ⟨s, hs, _, rfl⟩ := hrec.2 q hq
            exact ⟨s, hs, rfl⟩
          · intro q hq
            obtain ⟨s, hs, _, rfl⟩ := hrec.2 q hq
            refine ⟨'.' :: (kv.1 ++ s), Ext.key kv.1 s hkk hs, by simp, ?_⟩
            rw [childPathObj_of_ne hp]
            simp [List.append_assoc]
        · simp only [hcont, Bool.false_eq_true, if_false]
          refine ⟨⟨by simp, ?_⟩, ?_⟩
          · intro q hq
            simp only [List.map_cons, List.map_nil, List.mem_singleton] at hq
            exact ⟨[], Ext.nil, by simp [hq]⟩
          · intro q hq
            simp only [List.map_cons, List.map_nil, List.mem_singleton] at hq
            refine ⟨'.' :: (kv.1 ++ []), Ext.key kv.1 [] hkk Ext.nil, by simp, ?_⟩
            rw [hq, childPathObj_of_ne hp]
            simp
      constructor
      · apply flatMap_paths_nodup
        · intro e he; exact (hchild e he).1.1
        · intro e he; exact (hchild e he).1.2
        · rw [hce]
          rw [List.pairwise_map]
          have hknd : (kvs.map (fun kv => kv.1)).Nodup :=
            (keysNodup_iff _).mp hgood.1
          have hpw : List.Pairwise (fun a b => a.1 ≠ b.1) kvs :=
            List.pairwise_map.mp hknd
          refine hpw.imp_of_mem ?_
          intro a b ha hb hab
          exact objTok_ne hp (goodObj_mem hgood.2 a ha).1 (goodObj_mem hgood.2 b hb).1 hab
      · intro q hq
        rw [List.map_flatMap] at hq
        obtain ⟨e, he, hqe⟩ := List.mem_flatMap.mp hq
        exact (hchild e he).2 q hqe

/-- At the root (empty prefix) the leaf paths of a good document are
duplicate-free. -/
theorem leaves_root_nodup (doc : Json) (hg : goodJson doc = true) :
    ((leavesAt [] doc).map Prod.fst).Nodup := by
  cases doc with
  | null => rw [leavesAt_eq]; simp [isContainer]
  | bool b => rw [leavesAt_eq]; simp [isContainer]
  | num m => rw [leavesAt_eq]; simp [isContainer]
  | str s => rw [leavesAt_eq]; simp [isContainer]
  | arr xs =>
    exact (leaves_nodup_ext (jsize (.arr xs)) _ le_rfl [] hg rfl (Or.inr rfl)).1
  | obj kvs =>
    rw [leavesAt_eq]
    simp only [isContainer, if_true]
    have hce : childEntries [] (.obj kvs) = kvs.map (fun kv => (kv.1, kv.2)) := rfl
    have hgood : keysNodup (kvs.map (fun kv => kv.1)) = true ∧ goodObj kvs = true := by
      simpa [goodJson, Bool.and_eq_true] using hg
    have hchild : ∀ e ∈ childEntries [] (.obj kvs),
        ((if isContainer e.2 then leavesAt e.1 e.2 else [e]).map Prod.fst).Nodup ∧
        ∀ q ∈ (if isContainer e.2 then leavesAt e.1 e.2 else [e]).map Prod.fst,
          ∃ s, Ext s ∧ q = e.1 ++ s := by
      intro e he
      rw [hce] at he
      obtain ⟨kv, hkv, rfl⟩ := List.mem_map.mp he
      obtain ⟨hkk, hkg⟩ := goodObj_mem hgood.2 kv hkv
      have hsize : jsize kv.2 ≤ jsize (Json.obj kvs) := by
        have := jsize_lt_of_mem_childEntries (hce ▸ he)
        simp only at this
        omega
      by_cases hcont : isContainer kv.2
      · have hrec := leaves_nodup_ext (jsize (Json.obj kvs)) kv.2 hsize kv.1 hkg hcont
          (Or.inl (goodKey_ne_nil hkk))
        simp only [hcont, if_true]
        refine ⟨hrec.1, ?_⟩
        intro q hq
        obtain ⟨s, hs, _, rfl⟩ := hrec.2 q hq
        exact ⟨s, hs, rfl⟩
      · simp only [hcont, Bool.false_eq_true, if_false]
        refine ⟨by simp, ?_⟩
        intro q hq
        simp only [List.map_cons, List.map_nil, List.mem_singleton] at hq
        exact ⟨[], Ext.nil, by simp [hq]⟩
    apply flatMap_paths_nodup
    · intro e he; exact (hchild e he).1
    · intro e he; exact (hchild e he).2
    · rw [hce]
      rw [List.pairwise_map]
      have hknd : (kvs.map (fun kv => kv.1)).Nodup := (keysNodup_iff _).mp hgood.1
      have hpw : List.Pairwise (fun a b => a.1 ≠ b.1) kvs := List.pairwise_map.mp hknd
      refine hpw.imp_of_mem ?_
      intro a b ha hb hab
      intro s1 s2 he1 he2
      intro hcontra
      exact hab (key_ext_inj (goodObj_mem hgood.2 a ha).1 (goodObj_mem hgood.2 b hb).1
        he1 he2 hcontra).1

/-! ### Claim C5: the flattened pairs are a permutation of the leaves -/

/-- Splitting a flat map into its singleton part and its recursive part
permutes back to the whole. -/
theorem flatMap_filter_perm {α β : Type _} (p : α → Bool) (F : α → List β) (emb : α → β)
    (l : List α) (h1 : ∀ a ∈ l, p a = false → F a = [emb a]) :
    ((l.filter (fun a => !p a)).map emb ++ (l.filter p).flatMap F).Perm (l.flatMap F) := by
  induction l with
  | nil => simp
  | cons a l ih =>
    have ih2 := ih (fun x hx => h1 x (List.mem_cons_of_mem a hx))
    by_cases hp : p a
    · simp only [List.filter_cons, hp, Bool.not_true, Bool.false_eq_true, if_false, if_true,
        List.flatMap_cons]
      have s1 : ((l.filter (fun a => !p a)).map emb ++ (F a ++ (l.filter p).flatMap F)).Perm
          ((F a ++ (l.filter (fun a => !p a)).map emb) ++ (l.filter p).flatMap F) := by
        rw [← List.append_assoc]
        exact List.perm_append_comm.append_right _
      have s2 : ((F a ++ (l.filter (fun a => !p a)).map emb) ++ (l.filter p).flatMap F).Perm
          (F a ++ l.flatMap F) := by
        rw [List.append_assoc]
        exact (List.Perm.refl (F a)).append ih2
      exact s1.trans s2
    · simp only [List.filter_cons, hp, Bool.not_false, Bool.false_eq_true, if_false, if_true,
        List.flatMap_cons, List.map_cons]
      rw [h1 a (List.mem_cons_self a l) (by simpa using hp)]
      simpa using ih2.cons (emb a)

theorem flattenQ_perm : ∀ (N : Nat) (q : List (List Char × Json)), qsize q ≤ N →
    (flattenQ q).Perm (q.flatMap (fun e => leavesAt e.1 e.2)) := by
  intro N
  induction N with
  | zero =>
    intro q hq
    cases q with
    | nil => simp [flattenQ_nil]
    | cons e rest =>
      obtain ⟨path, node⟩ := e
      rw [qsize_cons] at hq
      have := jsize_pos node
      omega
  | succ N ih =>
    intro q hq
    cases q with
    | nil => simp [flattenQ_nil]
    | cons e rest =>
      obtain ⟨path, node⟩ := e
      rw [qsize_cons] at hq
      have hpos := jsize_pos node
      rw [flattenQ_cons, List.flatMap_cons]
      by_cases h : isContainer node
      · simp only [h, if_true]
        have hbound : qsize (rest ++ (childEntries path node).filter
            (fun e => isContainer e.2)) ≤ N := by
          rw [qsize_append]
          have h1 := qsize_filter_le (fun e => isContainer e.2) (childEntries path node)
          have h2 := qsize_childEntries path node
          omega
        have hrec := ih _ hbound
        rw [List.flatMap_append] at hrec
        have hco : ((childEntries path node).filter (fun e => isContainer e.2)).flatMap
            (fun e => leavesAt e.1 e.2) =
            ((childEntries path node).filter (fun e => isContainer e.2)).flatMap
            (fun e => if isContainer e.2 then leavesAt e.1 e.2 else [e]) := by
          rw [List.flatMap_def, List.flatMap_def]
          congr 1
          apply List.map_congr_left
          intro e he
          have : isContainer e.2 = true := (List.mem_filter.mp he).2
          rw [if_pos this]
        have hleaves : leavesAt path node = (childEntries path node).flatMap
            (fun e => if isContainer e.2 then leavesAt e.1 e.2 else [e]) := by
          rw [leavesAt_eq, if_pos h]
        have hsplit := flatMap_filter_perm (fun e => isContainer e.2)
          (fun e => if isContainer e.2 then leavesAt e.1 e.2 else [e]) id
          (childEntries path node)
          (fun a _ hfa => by
            have hfa2 : isContainer a.2 = false := hfa
            simp [hfa2])
        rw [List.map_id] at hsplit
        -- assemble the chain
        have s1 : ((childEntries path node).filter (fun e => !isContainer e.2) ++
            flattenQ (rest ++ (childEntries path node).filter (fun e => isContainer e.2))).Perm
            ((childEntries path node).filter (fun e => !isContainer e.2) ++
              (rest.flatMap (fun e => leavesAt e.1 e.2) ++
               ((childEntries path node).filter (fun e => isContainer e.2)).flatMap
                 (fun e => leavesAt e.1 e.2))) :=
          (List.Perm.refl _).append hrec
        have s2 : ((childEntries path node).filter (fun e => !isContainer e.2) ++
            (rest.flatMap (fun e => leavesAt e.1 e.2) ++
             ((childEntries path node).filter (fun e => isContainer e.2)).flatMap
               (fun e => leavesAt e.1 e.2))).Perm
            (((childEntries path node).filter (fun e => !isContainer e.2) ++
              ((childEntries path node).filter (fun e => isContainer e.2)).flatMap
                (fun e => leavesAt e.1 e.2)) ++
             rest.flatMap (fun e => leavesAt e.1 e.2)) := by
          rw [List.append_assoc]
          exact (List.Perm.refl _).append List.perm_append_comm
        have s3 : (((childEntries path node).filter (fun e => !isContainer e.2) ++
            ((childEntries path node).filter (fun e => isContainer e.2)).flatMap
              (fun e => leavesAt e.1 e.2)) ++
            rest.flatMap (fun e => leavesAt e.1 e.2)).Perm
            (leavesAt path node ++ rest.flatMap (fun e => leavesAt e.1 e.2)) := by
          refine List.Perm.append_right _ ?_
          rw [hco, hleaves]
          exact hsplit
        exact (s1.trans s2).trans s3
      · simp only [h, Bool.false_eq_true, if_false]
        have hrec := ih rest (by omega)
        have hleaves : leavesAt path node =
            [((if path.isEmpty then ['$'] else path), node)] := by
          rw [leavesAt_eq, if_neg (by simp [h])]
        rw [hleaves]
        simpa using hrec.cons ((if path.isEmpty then ['$'] else path), node)

/-- `flatten` enumerates exactly the scalar leaves of the document (in
breadth-first rather than depth-first order). -/
theorem flatten_perm_leaves (doc : Json) :
    (flatten doc).Perm (leavesAt [] doc) := by
  have h := flattenQ_perm (qsize [([], doc)]) [([], doc)] le_rfl
  simpa using h

/-- Claim C5 as stated fails: object keys containing path
metacharacters collide — `{"a.b": 1, "a": {"b": 2}}` flattens to two
pairs that both carry the path `a.b`, so the paths are not
duplicate-free and re-nesting cannot reconstruct both leaves. -/
theorem C5_counterexample :
    ¬ (((flatten (Json.obj [("a.b".toList, Json.num 1),
        ("a".toList, Json.obj [("b".toList, Json.num 2)])])).map Prod.fst).Nodup) := by
  decide

/-- Claim C5 (amended): for every document whose object keys are
non-empty, duplicate-free per object, and free of the path
metacharacters `.`, `[`, `]` at every nesting level, the flattener
yields pairwise-distinct paths, and the yielded pairs are exactly the
scalar leaves of the document with their access paths (`leavesAt`, the
depth-first leaf enumeration): the flattening is a permutation of the
leaf set, and with distinct paths it determines the leaves uniquely —
the round-trip at the leaves. -/
theorem C5_flatten_roundtrip (doc : Json) (hg : goodJson doc = true) :
    ((flatten doc).map Prod.fst).Nodup ∧ (flatten doc).Perm (leavesAt [] doc) := by
  have hperm := flatten_perm_leaves doc
  exact ⟨((hperm.map Prod.fst).nodup_iff).mpr (leaves_root_nodup doc hg), hperm⟩

theorem C5_flatten_roundtrip_witness :
    goodJson (Json.obj [("a".toList, Json.num 1),
      ("b".toList, Json.arr [Json.num 2, Json.null])]) = true ∧
    (((flatten (Json.obj [("a".toList, Json.num 1),
        ("b".toList, Json.arr [Json.num 2, Json.null])])).map Prod.fst).Nodup ∧
     (flatten (Json.obj [("a".toList, Json.num 1),
        ("b".toList, Json.arr [Json.num 2, Json.null])])).Perm
       (leavesAt [] (Json.obj [("a".toList, Json.num 1),
        ("b".toList, Json.arr [Json.num 2, Json.null])]))) :=
  ⟨by decide, C5_flatten_roundtrip _ (by decide)⟩

/-! ### Claim C6: breadth-first order and the bare-scalar case -/

/-- `isinstance` test for scalars (including null). -/
def isScalar (j : Json) : Bool := !isContainer j

def qsizeD (q : List (List Char × Nat × Json)) : Nat :=
  (q.map (fun e => jsize e.2.2)).sum

theorem qsizeD_cons (p : List Char) (d : Nat) (n : Json)
    (q : List (List Char × Nat × Json)) :
    qsizeD ((p, d, n) :: q) = jsize n + qsizeD q := by
  simp [qsizeD]

theorem qsizeD_append (q r : List (List Char × Nat × Json)) :
    qsizeD (q ++ r) = qsizeD q + qsizeD r := by
  simp [qsizeD]

theorem qsizeD_filter_le (p : (List Char × Nat × Json) → Bool)
    (q : List (List Char × Nat × Json)) :
    qsizeD (q.filter p) ≤ qsizeD q := by
  induction q with
  | nil => simp [qsizeD]
  | cons e q ih =>
    obtain ⟨pa, d, n⟩ := e
    rw [List.filter_cons, qsizeD_cons]
    by_cases h : p (pa, d, n)
    · simp only [h, if_true]
      rw [qsizeD_cons]
      omega
    · simp only [h, Bool.false_eq_true, if_false]
      omega

/-- The children of a container with their paths and their depth. -/
def childEntriesD (path : List Char) (d : Nat) (node : Json) :
    List (List Char × Nat × Json) :=
  (childEntries path node).map (fun e => (e.1, d + 1, e.2))

theorem qsizeD_childEntriesD (path : List Char) (d : Nat) (node : Json) :
    qsizeD (childEntriesD path d node) = qsize (childEntries path node) := by
  simp only [qsizeD, childEntriesD, qsize, List.map_map]
  rfl

/-- The queue loop of `_flatten_kv` instrumented with the node depth
(the same recursion as `flattenQ`; `flattenQ_eq_flattenQD` below shows
the instrumentation is invisible in the output pairs). -/
def flattenQD : List (List Char × Nat × Json) → List (List Char × Nat × Json)
  | [] => []
  | (path, d, node) :: rest =>
    if isContainer node then
      ((childEntriesD path d node).filter (fun e => !isContainer e.2.2)) ++
        flattenQD (rest ++ (childEntriesD path d node).filter (fun e => isContainer e.2.2))
    else
      ((if path.isEmpty then ['$'] else path), d, node) :: flattenQD rest
  termination_by q => qsizeD q
  decreasing_by
  · have h1 := qsizeD_filter_le (fun e => isContainer e.2.2) (childEntriesD path d node)
    have h2 := qsizeD_childEntriesD path d node
    have h3 := qsize_childEntries path node
    rw [qsizeD_append, qsizeD_cons]
    omega
  · rw [qsizeD_cons]
    have := jsize_pos node
    omega

def stripD (e : List Char × Nat × Json) : List Char × Json := (e.1, e.2.2)

theorem childEntries_eq_stripD (path : List Char) (d : Nat) (node : Json) :
    (childEntriesD path d node).map stripD = childEntries path node := by
  simp only [childEntriesD, List.map_map]
  have : (stripD ∘ fun e : List Char × Json => (e.1, d + 1, e.2)) = id := by
    funext e
    rfl
  rw [this, List.map_id]

theorem flattenQ_eq_flattenQD : ∀ (N : Nat) (q : List (List Char × Nat × Json)),
    qsizeD q ≤ N → flattenQ (q.map stripD) = (flattenQD q).map stripD := by
  intro N
  induction N with
  | zero =>
    intro q hq
    cases q with
    | nil => simp [flattenQ_nil, flattenQD]
    | cons e rest =>
      obtain ⟨path, d, node⟩ := e
      rw [qsizeD_cons] at hq
      have := jsize_pos node
      omega
  | succ N ih =>
    intro q hq
    cases q with
    | nil => simp [flattenQ_nil, flattenQD]
    | cons e rest =>
      obtain ⟨path, d, node⟩ := e
      rw [qsizeD_cons] at hq
      have hpos := jsize_pos node
      simp only [List.map_cons, stripD]
      rw [flattenQ_cons]
      by_cases h : isContainer node
      · simp only [h, if_true]
        simp only [flattenQD, h, if_true]
        have hbound : qsizeD (rest ++ (childEntriesD path d node).filter
            (fun e => isContainer e.2.2)) ≤ N := by
          rw [qsizeD_append]
          have h1 := qsizeD_filter_le (fun e => isContainer e.2.2) (childEntriesD path d node)
          have h2 := qsizeD_childEntriesD path d node
          have h3 := qsize_childEntries path node
          omega
        have hfilter1 : (childEntries path node).filter (fun e => !isContainer e.2) =
            ((childEntriesD path d node).filter (fun e => !isContainer e.2.2)).map stripD := by
          rw [← childEntries_eq_stripD path d node, List.filter_map]
          rfl
        have hfilter2 : (childEntries path node).filter (fun e => isContainer e.2) =
            ((childEntriesD path d node).filter (fun e => isContainer e.2.2)).map stripD := by
          rw [← childEntries_eq_stripD path d node, List.filter_map]
          rfl
        rw [hfilter1, hfilter2]
        rw [← List.map_append, ih _ hbound, ← List.map_append]
      · simp only [h, Bool.false_eq_true, if_false]
        simp only [flattenQD, h, Bool.false_eq_true, if_false]
        rw [ih rest (by omega)]
        rfl

/-- `flatten` with the depth of every emitted leaf attached. -/
def flattenD (doc : Json) : List (List Char × Nat × Json) := flattenQD [([], 0, doc)]

theorem flatten_eq_flattenD (doc : Json) :
    flatten doc = (flattenD doc).map stripD := by
  have h := flattenQ_eq_flattenQD (qsizeD [([], 0, doc)]) [([], 0, doc)] le_rfl
  simpa [flatten, flattenD, stripD] using h

def depthsOf (l : List (List Char × Nat × Json)) : List Nat :=
  l.map (fun e => e.2.1)

theorem pairwise_le_of_const {l : List Nat} {c : Nat} (h : ∀ x ∈ l, x = c) :
    List.Pairwise (· ≤ ·) l := by
  induction l with
  | nil => exact List.Pairwise.nil
  | cons x xs ih =>
    refine List.Pairwise.cons ?_ (ih (fun y hy => h y (List.mem_cons_of_mem x hy)))
    intro y hy
    rw [h x (List.mem_cons_self x xs), h y (List.mem_cons_of_mem x hy)]

theorem mem_childEntriesD_depth {path : List Char} {d : Nat} {node : Json}
    {e : List Char × Nat × Json} (he : e ∈ childEntriesD path d node) :
    e.2.1 = d + 1 := by
  obtain ⟨x, _, rfl⟩ := List.mem_map.mp he
  rfl

/-- The BFS invariant: over a queue of containers whose depths are
nondecreasing and within one of each other, the emitted leaves have
nondecreasing depths, all strictly below no emission: every emission is
at least one deeper than the front of the queue. -/
theorem flattenQD_sorted : ∀ (N : Nat) (q : List (List Char × Nat × Json)),
    qsizeD q ≤ N →
    (∀ e ∈ q, isContainer e.2.2 = true) →
    List.Pairwise (· ≤ ·) (depthsOf q) →
    (∀ e ∈ q, ∀ e2 ∈ q, e.2.1 ≤ e2.2.1 + 1) →
    List.Pairwise (· ≤ ·) (depthsOf (flattenQD q)) ∧
    (∀ out ∈ flattenQD q, ∀ hd rest2, q = hd :: rest2 → hd.2.1 + 1 ≤ out.2.1) := by
  intro N
  induction N with
  | zero =>
    intro q hq hcont hsort hbound
    cases q with
    | nil =>
      simp only [flattenQD]
      exact ⟨List.Pairwise.nil, by intro out hout; cases hout⟩
    | cons e rest =>
      obtain ⟨path, d, node⟩ := e
      rw [qsizeD_cons] at hq
      have := jsize_pos node
      omega
  | succ N ih =>
    intro q hq hcont hsort hbound
    cases q with
    | nil =>
      simp only [flattenQD]
      exact ⟨List.Pairwise.nil, by intro out hout; cases hout⟩
    | cons e rest =>
      obtain ⟨path, d, node⟩ := e
      rw [qsizeD_cons] at hq
      have hpos := jsize_pos node
      have hnode : isContainer node = true := hcont _ (List.mem_cons_self _ _)
      simp only [flattenQD, hnode, if_true]
      set co := (childEntriesD path d node).filter (fun e => isContainer e.2.2) with hco
      set sc := (childEntriesD path d node).filter (fun e => !isContainer e.2.2) with hsc
      have hscd : ∀ x ∈ sc, x.2.1 = d + 1 := by
        intro x hx
        exact mem_childEntriesD_depth (List.mem_of_mem_filter hx)
      have hcod : ∀ x ∈ co, x.2.1 = d + 1 := by
        intro x hx
        exact mem_childEntriesD_depth (List.mem_of_mem_filter hx)
      have hrestd : ∀ x ∈ rest, d ≤ x.2.1 := by
        intro x hx
        have := (List.pairwise_cons.mp hsort).1 x.2.1
          (List.mem_map.mpr ⟨x, hx, rfl⟩)
        exact this
      have hrestup : ∀ x ∈ rest, x.2.1 ≤ d + 1 := by
        intro x hx
        exact hbound x (List.mem_cons_of_mem _ hx) _ (List.mem_cons_self _ _)
      have hbnd : qsizeD (rest ++ co) ≤ N := by
        rw [qsizeD_append, hco]
        have h1 := qsizeD_filter_le (fun e => isContainer e.2.2) (childEntriesD path d node)
        have h2 := qsizeD_childEntriesD path d node
        have h3 := qsize_childEntries path node
        omega
      have hcont2 : ∀ e ∈ rest ++ co, isContainer e.2.2 = true := by
        intro x hx
        rcases List.mem_append.mp hx with hx | hx
        · exact hcont x (List.mem_cons_of_mem _ hx)
        · exact (List.mem_filter.mp hx).2
      have hsort2 : List.Pairwise (· ≤ ·) (depthsOf (rest ++ co)) := by
        unfold depthsOf
        rw [List.map_append, List.pairwise_append]
        refine ⟨(List.pairwise_cons.mp hsort).2, ?_, ?_⟩
        · exact pairwise_le_of_const (by
            intro x hx
            obtain ⟨y, hy, rfl⟩ := List.mem_map.mp hx
            exact hcod y hy)
        · intro x hx y hy
          obtain ⟨x0, hx0, rfl⟩ := List.mem_map.mp hx
          obtain ⟨y0, hy0, rfl⟩ := List.mem_map.mp hy
          rw [hcod y0 hy0]
          exact hrestup x0 hx0
      have hbound2 : ∀ x ∈ rest ++ co, ∀ y ∈ rest ++ co, x.2.1 ≤ y.2.1 + 1 := by
        intro x hx y hy
        have hxle : x.2.1 ≤ d + 1 := by
          rcases List.mem_append.mp hx with hx | hx
          · exact hrestup x hx
          · rw [hcod x hx]
        have hyge : d ≤ y.2.1 := by
          rcases List.mem_append.mp hy with hy | hy
          · exact hrestd y hy
          · rw [hcod y hy]; omega
        omega
      have hrec := ih (rest ++ co) hbnd hcont2 hsort2 hbound2
      have hreclow : ∀ out ∈ flattenQD (rest ++ co), d + 1 ≤ out.2.1 := by
        intro out hout
        cases hq2 : rest ++ co with
        | nil => rw [hq2] at hout; simp [flattenQD] at hout
        | cons hd2 rest2 =>
          have hhd2 : d ≤ hd2.2.1 := by
            have : hd2 ∈ rest ++ co := by rw [hq2]; exact List.mem_cons_self _ _
            rcases List.mem_append.mp this with hx | hx
            · exact hrestd hd2 hx
            · rw [hcod hd2 hx]; omega
          have := hrec.2 out hout hd2 rest2 hq2
          omega
      constructor
      · unfold depthsOf
        rw [List.map_append, List.pairwise_append]
        refine ⟨?_, hrec.1, ?_⟩
        · exact pairwise_le_of_const (by
            intro x hx
            obtain ⟨y, hy, rfl⟩ := List.mem_map.mp hx
            exact hscd y hy)
        · intro x hx y hy
          obtain ⟨x0, hx0, rfl⟩ := List.mem_map.mp hx
          obtain ⟨y0, hy0, rfl⟩ := List.mem_map.mp hy
          rw [hscd x0 hx0]
          exact hreclow y0 hy0
      · intro out hout hd rest2 heq
        injection heq with h1 h2
        subst h1
        rcases List.mem_append.mp hout with hx | hx
        · rw [hscd out hx]
        · exact hreclow out hx

/-- Claim C6: the flattener enumerates its pairs in breadth-first
order — the leaf depths recorded by the instrumented run are
nondecreasing, siblings (emitted at their parent, all at one depth)
come before any deeper descendant — it accepts any nesting of objects,
arrays and scalars/null (it is a total function), and a bare scalar
document yields exactly one pair with path `"$"`. -/
theorem C6_flatten_bfs_order :
    (∀ doc : Json,
      flatten doc = (flattenD doc).map stripD ∧
      List.Pairwise (· ≤ ·) (depthsOf (flattenD doc))) ∧
    (∀ v : Json, isScalar v = true → flatten v = [(['$'], v)]) := by
  constructor
  · intro doc
    refine ⟨flatten_eq_flattenD doc, ?_⟩
    by_cases h : isContainer doc
    · refine (flattenQD_sorted (qsizeD [([], 0, doc)]) [([], 0, doc)] le_rfl ?_ ?_ ?_).1
      · intro e he
        rcases List.mem_singleton.mp he with rfl
        exact h
      · simp [depthsOf]
      · intro e he e2 he2
        rcases List.mem_singleton.mp he with rfl
        rcases List.mem_singleton.mp he2 with rfl
        exact Nat.le_succ _
    · unfold flattenD
      simp only [flattenQD, h, Bool.false_eq_true, if_false]
      simp [depthsOf]
  · intro v hv
    have h : isContainer v = false := by simpa [isScalar] using hv
    unfold flatten
    rw [flattenQ_cons]
    rw [if_neg (by simp [h]), flattenQ_nil]
    rfl

theorem C6_flatten_bfs_order_witness :
    isScalar (Json.num 7) = true ∧ flatten (Json.num 7) = [(['$'], Json.num 7)] :=
  ⟨by decide, C6_flatten_bfs_order.2 (Json.num 7) (by decide)⟩

